import Mathlib

/-!
Verification development for the jfinqa repository.

Shallow embedding of:
* `src/jfinqa/_metrics.py`  — answer normalization / numeric extraction / matching,
* `scripts/pipeline/dsl.py` — the FinQA-style DSL interpreter,
* `scripts/pipeline/s4_validate.py` — Stage-4 normalizer, matcher, dedup, validator.

Modelling conventions:
* Python `str` is modelled as `List Char` (wrappers taking `String` convert).
* Python floats are modelled exactly: finite values as `ℚ` (binary rounding
  artifacts are not tracked), with explicit `inf` / `ninf` / `nan` values, and
  an `irr` marker for finite float results whose exact value is not expressible
  in `ℚ` (only fractional powers produce these; no claim depends on them).
* `unicodedata.normalize("NFKC", ·)` is modelled as a character map covering the
  repertoire this domain exercises (fullwidth digits, latin letters and
  punctuation, ideographic space); it is the identity elsewhere.  `str.lower()`
  is modelled on the ASCII range; `str.strip()` on the common whitespace set.
  Python's `int()` / `float()` literal grammars are modelled over ASCII digits
  (Unicode digit acceptance is not modelled).
-/

namespace JfinqaModel

/- Rational arithmetic must evaluate inside `decide` proofs; Batteries marks
these operations irreducible for elaboration performance only. -/
attribute [local semireducible] Rat.add Rat.mul Rat.sub Rat.inv Rat.ofScientific

/-! ### Python string primitives -/

/-- Whitespace characters recognised by the model of `str.strip()`
(common subset of Python's Unicode whitespace). -/
def pyWsChars : List Char := [' ', '\t', '\n', '\r', '\x0b', '\x0c', ' ', '　']

def isPyWs (c : Char) : Bool := pyWsChars.contains c

/-- Model of `str.strip()`: drop whitespace from both ends. -/
def pyStrip (l : List Char) : List Char :=
  ((l.dropWhile isPyWs).reverse.dropWhile isPyWs).reverse

/-- NFKC modelled as a character translation table (identity off the table):
fullwidth digits, fullwidth latin letters, fullwidth punctuation used in the
corpus, ideographic space. -/
def nfkcPairs : List (Char × Char) :=
  [('０', '0'), ('１', '1'), ('２', '2'), ('３', '3'), ('４', '4'),
   ('５', '5'), ('６', '6'), ('７', '7'), ('８', '8'), ('９', '9'),
   ('Ａ', 'A'), ('Ｂ', 'B'), ('Ｃ', 'C'), ('Ｄ', 'D'), ('Ｅ', 'E'),
   ('Ｆ', 'F'), ('Ｇ', 'G'), ('Ｈ', 'H'), ('Ｉ', 'I'), ('Ｊ', 'J'),
   ('Ｋ', 'K'), ('Ｌ', 'L'), ('Ｍ', 'M'), ('Ｎ', 'N'), ('Ｏ', 'O'),
   ('Ｐ', 'P'), ('Ｑ', 'Q'), ('Ｒ', 'R'), ('Ｓ', 'S'), ('Ｔ', 'T'),
   ('Ｕ', 'U'), ('Ｖ', 'V'), ('Ｗ', 'W'), ('Ｘ', 'X'), ('Ｙ', 'Y'),
   ('Ｚ', 'Z'),
   ('ａ', 'a'), ('ｂ', 'b'), ('ｃ', 'c'), ('ｄ', 'd'), ('ｅ', 'e'),
   ('ｆ', 'f'), ('ｇ', 'g'), ('ｈ', 'h'), ('ｉ', 'i'), ('ｊ', 'j'),
   ('ｋ', 'k'), ('ｌ', 'l'), ('ｍ', 'm'), ('ｎ', 'n'), ('ｏ', 'o'),
   ('ｐ', 'p'), ('ｑ', 'q'), ('ｒ', 'r'), ('ｓ', 's'), ('ｔ', 't'),
   ('ｕ', 'u'), ('ｖ', 'v'), ('ｗ', 'w'), ('ｘ', 'x'), ('ｙ', 'y'),
   ('ｚ', 'z'),
   ('％', '%'), ('＋', '+'), ('，', ','), ('－', '-'), ('．', '.'),
   ('（', '('), ('）', ')'), ('　', ' ')]

def nfkcChar (c : Char) : Char := ((nfkcPairs.lookup c).getD c)

def nfkcMap (l : List Char) : List Char := l.map nfkcChar

/-- Model of `str.lower()` on the ASCII range (the characters this corpus
exercises; Python's full Unicode lowercasing is not modelled). -/
def pyLower (c : Char) : Char :=
  if 'A' ≤ c ∧ c ≤ 'Z' then Char.ofNat (c.toNat + 32) else c

/-- `re.sub(r"^[△▲]", "-", s)`: replace one leading negative glyph. -/
def triSub : List Char → List Char
  | [] => []
  | c :: r => if c = '△' ∨ c = '▲' then '-' :: r else c :: r

def isAsciiDigit (c : Char) : Bool := '0' ≤ c ∧ c ≤ '9'

def digOpt : Option Char → Bool
  | some c => isAsciiDigit c
  | none => false

def digHead (l : List Char) : Bool := digOpt l.head?

/-- `re.sub(r"(?<=\d),(?=\d)", "", s)`: delete each comma whose original
neighbours are both digits.  `prev` is the character preceding the current
position in the *original* string (lookarounds inspect the original string). -/
def decommaAux (prev : Option Char) : List Char → List Char
  | [] => []
  | c :: rest =>
      if c = ',' ∧ digOpt prev ∧ digHead rest then decommaAux (some c) rest
      else c :: decommaAux (some c) rest

def decomma (l : List Char) : List Char := decommaAux none l

/-- `l` ends with `suf` (model of `str.endswith`). -/
def hasSuffix (l suf : List Char) : Bool :=
  decide (suf.length ≤ l.length) && decide (l.drop (l.length - suf.length) = suf)

/-- `str.removesuffix`: drop `suf` from the end when it is there. -/
def dropSuffix (l suf : List Char) : List Char :=
  if hasSuffix l suf then l.take (l.length - suf.length) else l

def shita : List Char := ['し', 'た']

def shimashita : List Char := ['し', 'ま', 'し', 'た']

/-- The categorical verb-ending strip of `normalize_answer`
(`しました` checked before `した`). -/
def endingStrip (l : List Char) : List Char :=
  if hasSuffix l shimashita then l.take (l.length - 4)
  else if hasSuffix l shita then l.take (l.length - 2)
  else l

/-- `jfinqa._metrics.normalize_answer`, on `List Char`. -/
def normalizeAnswerL (l : List Char) : List Char :=
  if l = [] then []
  else pyStrip ((endingStrip (decomma (triSub (nfkcMap (pyStrip l))))).map pyLower)

def normalizeAnswer (s : String) : String :=
  String.mk (normalizeAnswerL s.toList)

/-! ### Python numeric literal parsing (`int()` / `float()`) -/

/-- Validity of underscores in a Python numeric literal string: every `_`
must sit between two digits. -/
def underscoresOk : Option Char → List Char → Bool
  | _, [] => true
  | prev, c :: rest =>
      if c = '_' then digOpt prev && digHead rest && underscoresOk (some c) rest
      else underscoresOk (some c) rest

def digitVal (c : Char) : ℕ := c.toNat - '0'.toNat

def digitsToNat (l : List Char) : ℕ := l.foldl (fun a c => 10 * a + digitVal c) 0

/-- Parse an unsigned run of ASCII digits; `none` when empty or non-digit. -/
def parseDigits (l : List Char) : Option ℕ :=
  if l ≠ [] ∧ l.all isAsciiDigit then some (digitsToNat l) else none

def splitSign : List Char → (Bool × List Char)
  | '-' :: r => (true, r)
  | '+' :: r => (false, r)
  | l => (false, l)

/-- Model of Python `int(s)` on ASCII literal strings:
optional sign, nonempty digit run (after validating and dropping `_`). -/
def pyIntParse (l : List Char) : Option ℤ :=
  if underscoresOk none l then
    let l' := l.filter (· ≠ '_')
    let (neg, body) := splitSign l'
    (parseDigits body).map (fun n => if neg then -(n : ℤ) else (n : ℤ))
  else none

/-- Split a float literal body at the first `e`/`E`. -/
def splitExp (l : List Char) : List Char × Option (List Char) :=
  let m := l.takeWhile (fun c => ¬ (c = 'e' ∨ c = 'E'))
  match l.drop m.length with
  | [] => (m, none)
  | _ :: rest => (m, some rest)

/-- Mantissa grammar: `d+ | d* '.' d*` with at least one digit overall.
Returns the value as a rational. -/
def parseMantissa (l : List Char) : Option ℚ :=
  let intPart := l.takeWhile (· ≠ '.')
  match l.drop intPart.length with
  | [] => (parseDigits l).map (fun n => (n : ℚ))
  | _ :: fracPart =>
      if intPart.all isAsciiDigit ∧ fracPart.all isAsciiDigit ∧
          (intPart ≠ [] ∨ fracPart ≠ []) ∧ ¬ fracPart.contains '.' then
        some ((digitsToNat intPart : ℚ) +
          (digitsToNat fracPart : ℚ) / ((10 : ℚ) ^ fracPart.length))
      else none

/-- Model of Python `float(s)` on ASCII decimal literals (optional sign,
decimal mantissa, optional exponent; `inf`/`nan` keyword forms are not
modelled — no call site of the sources can reach them). -/
def pyFloatParse (l : List Char) : Option ℚ :=
  if underscoresOk none l then
    let l' := l.filter (· ≠ '_')
    let (neg, body) := splitSign l'
    let (mant, expo) := splitExp body
    match parseMantissa mant, expo with
    | some m, none => some (if neg then -m else m)
    | some m, some e =>
        let (eneg, ebody) := splitSign e
        (parseDigits ebody).map (fun n =>
          let v := m * (if eneg then ((10 : ℚ) ^ n)⁻¹ else (10 : ℚ) ^ n)
          if neg then -v else v)
    | none, _ => none
  else none

/-! ### `extract_number` -/

/-- `_KANJI_MULTIPLIERS`, in dict insertion order. -/
def kanjiMultipliers : List (List Char × ℚ) :=
  [(['千'], 1000), (['百', '万'], 1000000), (['億'], 100000000),
   (['兆'], 1000000000000)]

/-- `_UNIT_SUFFIXES`, in tuple order. -/
def unitSuffixes : List (List Char) :=
  [['百', '万', '円'], ['千', '円'], ['億', '円'], ['兆', '円'], ['円'],
   ['ド', 'ル'], ['ポ', 'イ', 'ン', 'ト'], ['p', 't'], ['b', 'p', 's']]

def stripUnits (l : List Char) : List Char :=
  unitSuffixes.foldl dropSuffix l

/-- `s.replace(pat, "")` for a nonempty pattern: delete every (leftmost,
non-overlapping) occurrence. -/
def eraseAllSub (pat : List Char) (l : List Char) : List Char :=
  if h : pat = [] ∨ l = [] then l
  else if pat.isPrefixOf l then eraseAllSub pat (l.drop pat.length)
  else l.head! :: eraseAllSub pat l.tail
termination_by l.length
decreasing_by
  · simp only [not_or] at h
    have hp : 0 < pat.length := List.length_pos.mpr h.1
    have hl : 0 < l.length := List.length_pos.mpr h.2
    simp only [List.length_drop]; omega
  · simp only [not_or] at h
    have hl : 0 < l.length := List.length_pos.mpr h.2
    cases l with
    | nil => simp at h
    | cons a as => simp

/-- Characters kept by `re.sub(r"[^\d.\-+]", "", ·)`. -/
def isNumKeep (c : Char) : Bool := isAsciiDigit c ∨ c = '.' ∨ c = '-' ∨ c = '+'

def keepNum (l : List Char) : List Char := l.filter isNumKeep

/-- Python substring containment `pat in l`. -/
def containsSub (pat l : List Char) : Bool :=
  (List.range (l.length + 1)).any (fun i => pat.isPrefixOf (l.drop i))

/-- First kanji multiplier entry whose key occurs in `l`
(`for kanji, multiplier in _KANJI_MULTIPLIERS.items(): if kanji in s`). -/
def kanjiScan (l : List Char) : Option (List Char × ℚ) :=
  kanjiMultipliers.find? (fun p => containsSub p.1 l)

/-- `jfinqa._metrics.extract_number`, on `List Char` (`s` of the source is
`normalizeAnswerL t` and `s1` its unit-suffix-stripped form, inlined). -/
def extractNumberL (t : List Char) : Option ℚ :=
  if normalizeAnswerL t = [] then none
  else
    match kanjiScan (stripUnits (normalizeAnswerL t)) with
    | some (k, m) =>
        (pyFloatParse (keepNum (pyStrip
          (eraseAllSub k (stripUnits (normalizeAnswerL t)))))).map (· * m)
    | none =>
        pyFloatParse (keepNum
          (if hasSuffix (stripUnits (normalizeAnswerL t)) ['%'] then
            (stripUnits (normalizeAnswerL t)).take
              ((stripUnits (normalizeAnswerL t)).length - 1)
          else stripUnits (normalizeAnswerL t)))

def extractNumber (s : String) : Option ℚ := extractNumberL s.toList

/-! ### `exact_match` / `numerical_match` -/

def exactMatch (predicted gold : String) : Bool :=
  decide (normalizeAnswerL predicted.toList = normalizeAnswerL gold.toList)

/-- `jfinqa._metrics.numerical_match` (keyword `rel_tolerance`, default 0.01). -/
def numericalMatch (predicted gold : String) (relTolerance : ℚ := 1/100) : Bool :=
  match extractNumber predicted, extractNumber gold with
  | some predNum, some goldNum =>
      if goldNum = 0 then decide (predNum = 0)
      else decide (|predNum - goldNum| / |goldNum| ≤ relTolerance)
  | _, _ => exactMatch predicted gold

/-! ### `scripts/pipeline/s4_validate.py`: `_normalize`, `_extract_number`,
`_numerical_match`, `_char_ngrams`, `_jaccard`, `_deduplicate` -/

/-- `s4_validate._normalize`: strip, NFKC, replace every `△`/`▲` with `-`,
delete every comma, lowercase. -/
def s4NormalizeL (l : List Char) : List Char :=
  (((nfkcMap (pyStrip l)).map
      (fun c => if c = '△' ∨ c = '▲' then '-' else c)).filter (· ≠ ',')).map pyLower

def s4Normalize (s : String) : String := String.mk (s4NormalizeL s.toList)

/-- Greedy tail of `re` pattern `\d+\.?\d*` starting at a digit. -/
def numTail (l : List Char) : List Char :=
  let ds := l.takeWhile isAsciiDigit
  let rest := l.drop ds.length
  match rest with
  | '.' :: r => ds ++ '.' :: r.takeWhile isAsciiDigit
  | _ => ds

/-- `re.search(r"-?\d+\.?\d*", s)`: leftmost match. -/
def findNumSub : List Char → Option (List Char)
  | [] => none
  | c :: rest =>
      if c = '-' ∧ digHead rest then some ('-' :: numTail rest)
      else if isAsciiDigit c then some (numTail (c :: rest))
      else findNumSub rest

/-- Suffix tokens deleted by `s4_validate._extract_number`
(`s.replace(suffix, "")` — deletes every occurrence, in this order). -/
def s4Suffixes : List (List Char) :=
  [['%'], ['円'], ['百', '万', '円'], ['千', '円'], ['億', '円'], ['兆', '円']]

/-- `s4_validate._extract_number`. -/
def s4ExtractNumberL (t : List Char) : Option ℚ :=
  let s := pyStrip (s4Suffixes.foldl (fun acc suf => eraseAllSub suf acc)
    (s4NormalizeL t))
  (findNumSub s).bind pyFloatParse

def s4ExtractNumber (s : String) : Option ℚ := s4ExtractNumberL s.toList

/-- `ANSWER_TOLERANCE` from `scripts/pipeline/config.py`. -/
def answerTolerance : ℚ := 5/100

/-- `s4_validate._numerical_match` (tolerance default `ANSWER_TOLERANCE`). -/
def s4NumericalMatch (predicted gold : String)
    (tolerance : ℚ := answerTolerance) : Bool :=
  match s4ExtractNumber predicted, s4ExtractNumber gold with
  | some predNum, some goldNum =>
      if goldNum = 0 then decide (|predNum| < 1/1000)
      else decide (|predNum - goldNum| / |goldNum| ≤ tolerance)
  | _, _ => decide (s4NormalizeL predicted.toList = s4NormalizeL gold.toList)

/-- `s4_validate._char_ngrams` (default n = 3): the set of character n-grams
of the normalized text, `text[i:i+n]` for `i in range(max(0, len(text)-n+1))`. -/
def charNgrams (text : String) (n : ℕ := 3) : Finset (List Char) :=
  let t := s4NormalizeL text.toList
  ((List.range (t.length + 1 - n)).map (fun i => (t.drop i).take n)).toFinset

/-- `s4_validate._jaccard`. -/
def jaccard (a b : Finset (List Char)) : ℚ :=
  if a = ∅ ∨ b = ∅ then 0
  else ((a ∩ b).card : ℚ) / ((a ∪ b).card : ℚ)

/-- A question record as `_deduplicate` consumes it: the nested
`q["qa"]["question"]` text and the optional `edinet_code` field. -/
structure DedupQ where
  question : String
  edinetCode : Option String
deriving DecidableEq

/-- `q.get("edinet_code", "unknown")`. -/
def DedupQ.company (q : DedupQ) : String := q.edinetCode.getD "unknown"

/-- Per-company n-gram caches (`defaultdict(list)` read through lookup). -/
def cacheGet (cache : List (String × List (Finset (List Char))))
    (c : String) : List (Finset (List Char)) :=
  match cache.find? (fun p => p.1 = c) with
  | some p => p.2
  | none => []

def cacheAdd (cache : List (String × List (Finset (List Char))))
    (c : String) (ng : Finset (List Char)) :
    List (String × List (Finset (List Char))) :=
  match cache with
  | [] => [(c, [ng])]
  | p :: rest =>
      if p.1 = c then (p.1, p.2 ++ [ng]) :: rest else p :: cacheAdd rest c ng

/-- `s4_validate._deduplicate` (threshold default 0.7). -/
def dedupAux (threshold : ℚ)
    (cache : List (String × List (Finset (List Char)))) :
    List DedupQ → List DedupQ
  | [] => []
  | q :: rest =>
      let ng := charNgrams q.question
      let comp := q.company
      if (cacheGet cache comp).any (fun cached => threshold < jaccard ng cached)
      then dedupAux threshold cache rest
      else q :: dedupAux threshold (cacheAdd cache comp ng) rest

def deduplicate (questions : List DedupQ) (threshold : ℚ := 7/10) :
    List DedupQ :=
  dedupAux threshold [] questions

/-! ### `scripts/pipeline/dsl.py`: values

Python's dynamically typed step values.  Finite floats carry their exact
rational value; `irr` marks a finite float whose exact value the model does
not track (it only arises from fractional powers, which no claim depends on;
operations propagate it).  `complex` marks a complex number (only produced by
fractional powers of negative numbers); its components are untracked. -/

inductive PyExc where
  | typeError
  | valueError
  | zeroDivisionError
  | overflowError
  | indexError
deriving DecidableEq, Repr

inductive NumV where
  | int (z : ℤ)
  | fl (q : ℚ)
  | irr
  | inf
  | ninf
  | nan
deriving DecidableEq, Repr

inductive Val where
  | num (n : NumV)
  | bool (b : Bool)
  | str (s : List Char)
  | complex
deriving DecidableEq, Repr

def NumV.negV : NumV → NumV
  | .int z => .int (-z)
  | .fl q => .fl (-q)
  | .irr => .irr
  | .inf => .ninf
  | .ninf => .inf
  | .nan => .nan

/-- Finite numeric value as a rational, when tracked. -/
def NumV.fin? : NumV → Option ℚ
  | .int z => some (z : ℚ)
  | .fl q => some q
  | _ => none

/-- Python float/int addition (IEEE special values follow Python floats). -/
def numAdd : NumV → NumV → NumV
  | .nan, _ => .nan
  | _, .nan => .nan
  | .inf, .ninf => .nan
  | .ninf, .inf => .nan
  | .inf, _ => .inf
  | _, .inf => .inf
  | .ninf, _ => .ninf
  | _, .ninf => .ninf
  | .irr, _ => .irr
  | _, .irr => .irr
  | .int a, .int b => .int (a + b)
  | .int a, .fl b => .fl ((a : ℚ) + b)
  | .fl a, .int b => .fl (a + (b : ℚ))
  | .fl a, .fl b => .fl (a + b)

def numSub (a b : NumV) : NumV := numAdd a b.negV

/-- Python float/int multiplication. -/
def numMul : NumV → NumV → NumV
  | .nan, _ => .nan
  | _, .nan => .nan
  | .irr, .irr => .irr
  | .irr, .int _ => .irr
  | .irr, .fl _ => .irr
  | .int _, .irr => .irr
  | .fl _, .irr => .irr
  | .irr, _ => .irr
  | _, .irr => .irr
  | .inf, .inf => .inf
  | .inf, .ninf => .ninf
  | .ninf, .inf => .ninf
  | .ninf, .ninf => .inf
  | .inf, .int b => if 0 < b then .inf else if b < 0 then .ninf else .nan
  | .inf, .fl b => if 0 < b then .inf else if b < 0 then .ninf else .nan
  | .ninf, .int b => if 0 < b then .ninf else if b < 0 then .inf else .nan
  | .ninf, .fl b => if 0 < b then .ninf else if b < 0 then .inf else .nan
  | .int a, .inf => if 0 < a then .inf else if a < 0 then .ninf else .nan
  | .fl a, .inf => if 0 < a then .inf else if a < 0 then .ninf else .nan
  | .int a, .ninf => if 0 < a then .ninf else if a < 0 then .inf else .nan
  | .fl a, .ninf => if 0 < a then .ninf else if a < 0 then .inf else .nan
  | .int a, .int b => .int (a * b)
  | .int a, .fl b => .fl ((a : ℚ) * b)
  | .fl a, .int b => .fl (a * (b : ℚ))
  | .fl a, .fl b => .fl (a * b)

/-- Python true division `a / b`.  Only reached with `b != 0`
(the `divide` operator guards `b != 0`); the zero-divisor arms are
unreachable and map to `nan`. -/
def numDiv : NumV → NumV → NumV
  | .nan, _ => .nan
  | _, .nan => .nan
  | .irr, _ => .irr
  | _, .irr => .irr
  | .inf, .inf => .nan
  | .inf, .ninf => .nan
  | .ninf, .inf => .nan
  | .ninf, .ninf => .nan
  | .inf, .int b => if 0 < b then .inf else if b < 0 then .ninf else .nan
  | .inf, .fl b => if 0 < b then .inf else if b < 0 then .ninf else .nan
  | .ninf, .int b => if 0 < b then .ninf else if b < 0 then .inf else .nan
  | .ninf, .fl b => if 0 < b then .ninf else if b < 0 then .inf else .nan
  | .int _, .inf => .fl 0
  | .fl _, .inf => .fl 0
  | .int _, .ninf => .fl 0
  | .fl _, .ninf => .fl 0
  | .int a, .int b => if b = 0 then .nan else .fl ((a : ℚ) / (b : ℚ))
  | .int a, .fl b => if b = 0 then .nan else .fl ((a : ℚ) / b)
  | .fl a, .int b => if b = 0 then .nan else .fl (a / (b : ℚ))
  | .fl a, .fl b => if b = 0 then .nan else .fl (a / b)

/-- Python numeric `==` (used by the `b != 0` guard of `divide`).
`irr` values are genuine irrationals, hence never equal to `0`. -/
def numEq : NumV → NumV → Bool
  | .nan, _ => false
  | _, .nan => false
  | .irr, _ => false
  | _, .irr => false
  | .inf, .inf => true
  | .ninf, .ninf => true
  | .inf, _ => false
  | _, .inf => false
  | .ninf, _ => false
  | _, .ninf => false
  | a, b => a.fin? == b.fin?

/-- Python numeric `<`.  Comparisons against `nan` are `False`; comparisons
involving an untracked `irr` value are modelled as `False`. -/
def numLt : NumV → NumV → Bool
  | .nan, _ => false
  | _, .nan => false
  | .irr, _ => false
  | _, .irr => false
  | .ninf, .ninf => false
  | .ninf, _ => true
  | _, .ninf => false
  | .inf, _ => false
  | _, .inf => true
  | .int a, .int b => decide (a < b)
  | .int a, .fl b => decide ((a : ℚ) < b)
  | .fl a, .int b => decide (a < (b : ℚ))
  | .fl a, .fl b => decide (a < b)

def numAbs : NumV → NumV
  | .int z => .int |z|
  | .fl q => .fl |q|
  | .irr => .irr
  | .inf => .inf
  | .ninf => .inf
  | .nan => .nan

/-- `bool` coerced as int (Python `bool` is an `int` subtype). -/
def boolNum (b : Bool) : NumV := .int (if b then 1 else 0)

/-- `a ** b` for an integer exponent. -/
def numPowInt (x : NumV) (z : ℤ) : Except PyExc Val :=
  if z = 0 then
    match x with
    | .int _ => .ok (.num (.int 1))
    | _ => .ok (.num (.fl 1))
  else
    match x with
    | .int a =>
        if 0 ≤ z then .ok (.num (.int (a ^ z.toNat)))
        else if a = 0 then .error .zeroDivisionError
        else .ok (.num (.fl ((a : ℚ) ^ z)))
    | .fl q =>
        if q = 0 ∧ z < 0 then .error .zeroDivisionError
        else .ok (.num (.fl (q ^ z)))
    | .irr => .ok (.num .irr)
    | .inf => .ok (.num (if 0 < z then .inf else .fl 0))
    | .ninf =>
        if 0 < z then .ok (.num (if Odd z then .ninf else .inf))
        else .ok (.num (.fl 0))
    | .nan => .ok (.num .nan)

/-- `a ** b` for a non-integral finite float exponent `e`.
A negative base gives a `complex` result (Python returns a complex number,
it does not raise); a positive base gives a float whose exact value is not
rational in general (`irr`). -/
def numPowFrac (x : NumV) (e : ℚ) : Except PyExc Val :=
  match x with
  | .int a =>
      if a < 0 then .ok .complex
      else if a = 0 then
        if 0 < e then .ok (.num (.fl 0)) else .error .zeroDivisionError
      else .ok (.num .irr)
  | .fl q =>
      if q < 0 then .ok .complex
      else if q = 0 then
        if 0 < e then .ok (.num (.fl 0)) else .error .zeroDivisionError
      else .ok (.num .irr)
  | .irr => .ok (.num .irr)
  | .inf => .ok (.num (if 0 < e then .inf else .fl 0))
  | .ninf => .ok (.num (if 0 < e then .inf else .fl 0))
  | .nan => .ok (.num .nan)

/-- Python `a ** b` on numbers (`float.__pow__` special cases follow IEEE;
exponents with untracked value propagate `irr`). -/
def numPow (x y : NumV) : Except PyExc Val :=
  match y with
  | .int z => numPowInt x z
  | .fl e => if e.den = 1 then numPowInt x e.num else numPowFrac x e
  | .irr => .ok (.num .irr)
  | .inf =>
      match x with
      | .irr => .ok (.num .irr)
      | .nan => .ok (.num .nan)
      | .inf => .ok (.num .inf)
      | .ninf => .ok (.num .inf)
      | .int a => .ok (.num (if 1 < |a| then .inf else if |a| = 1 then .fl 1 else .fl 0))
      | .fl q => .ok (.num (if 1 < |q| then .inf else if |q| = 1 then .fl 1 else .fl 0))
  | .ninf =>
      match x with
      | .irr => .ok (.num .irr)
      | .nan => .ok (.num .nan)
      | .inf => .ok (.num (.fl 0))
      | .ninf => .ok (.num (.fl 0))
      | .int a => .ok (.num (if 1 < |a| then .fl 0 else if |a| = 1 then .fl 1 else .inf))
      | .fl q => .ok (.num (if 1 < |q| then .fl 0 else if |q| = 1 then .fl 1 else .inf))
  | .nan =>
      match x with
      | .int 1 => .ok (.num (.fl 1))
      | .fl q => if q = 1 then .ok (.num (.fl 1)) else .ok (.num .nan)
      | _ => .ok (.num .nan)

/-! ### `scripts/pipeline/dsl.py`: operator table -/

def Val.isStrV : Val → Bool
  | .str _ => true
  | _ => false

/-- `"a" * z` (Python string repetition; non-positive counts give `""`). -/
def strRepeat (s : List Char) (z : ℤ) : List Char :=
  (List.replicate z.toNat s).join

/-- Python `a + b` on step values. -/
def pyAdd : Val → Val → Except PyExc Val
  | .str s, .str t => .ok (.str (s ++ t))
  | .str _, _ => .error .typeError
  | _, .str _ => .error .typeError
  | .complex, _ => .ok .complex
  | _, .complex => .ok .complex
  | .num a, .num b => .ok (.num (numAdd a b))
  | .num a, .bool b => .ok (.num (numAdd a (boolNum b)))
  | .bool a, .num b => .ok (.num (numAdd (boolNum a) b))
  | .bool a, .bool b => .ok (.num (numAdd (boolNum a) (boolNum b)))

/-- Python `a - b` on step values. -/
def pySub : Val → Val → Except PyExc Val
  | .str _, _ => .error .typeError
  | _, .str _ => .error .typeError
  | .complex, _ => .ok .complex
  | _, .complex => .ok .complex
  | .num a, .num b => .ok (.num (numSub a b))
  | .num a, .bool b => .ok (.num (numSub a (boolNum b)))
  | .bool a, .num b => .ok (.num (numSub (boolNum a) b))
  | .bool a, .bool b => .ok (.num (numSub (boolNum a) (boolNum b)))

/-- Python `a * b` on step values (`str * int` repeats the string). -/
def pyMul : Val → Val → Except PyExc Val
  | .str s, .num (.int z) => .ok (.str (strRepeat s z))
  | .num (.int z), .str s => .ok (.str (strRepeat s z))
  | .str s, .bool b => .ok (.str (strRepeat s (if b then 1 else 0)))
  | .bool b, .str s => .ok (.str (strRepeat s (if b then 1 else 0)))
  | .str _, _ => .error .typeError
  | _, .str _ => .error .typeError
  | .complex, _ => .ok .complex
  | _, .complex => .ok .complex
  | .num a, .num b => .ok (.num (numMul a b))
  | .num a, .bool b => .ok (.num (numMul a (boolNum b)))
  | .bool a, .num b => .ok (.num (numMul (boolNum a) b))
  | .bool a, .bool b => .ok (.num (numMul (boolNum a) (boolNum b)))

/-- Python `b != 0` on a step value (`divide`'s guard). -/
def pyNeZero : Val → Bool
  | .num n => !(numEq n (.int 0))
  | .bool b => b
  | .str _ => true
  | .complex => true

/-- Python `a / b` (true division), reached only when `b != 0`. -/
def pyTrueDiv : Val → Val → Except PyExc Val
  | .str _, _ => .error .typeError
  | _, .str _ => .error .typeError
  | .complex, _ => .ok .complex
  | _, .complex => .ok .complex
  | .num a, .num b => .ok (.num (numDiv a b))
  | .num a, .bool b => .ok (.num (numDiv a (boolNum b)))
  | .bool a, .num b => .ok (.num (numDiv (boolNum a) b))
  | .bool a, .bool b => .ok (.num (numDiv (boolNum a) (boolNum b)))

/-- The `divide` operator: `a / b if b != 0 else math.inf`. -/
def pyDivide (a b : Val) : Except PyExc Val :=
  if pyNeZero b then pyTrueDiv a b else .ok (.num .inf)

/-- Python `a ** b` on step values. -/
def pyPow : Val → Val → Except PyExc Val
  | .str _, _ => .error .typeError
  | _, .str _ => .error .typeError
  | .complex, _ => .ok .complex
  | _, .complex => .ok .complex
  | .num a, .num b => numPow a b
  | .num a, .bool b => numPow a (boolNum b)
  | .bool a, .num b => numPow (boolNum a) b
  | .bool a, .bool b => numPow (boolNum a) (boolNum b)

/-- Code-point lexicographic `<` on Python strings. -/
def lexLt : List Char → List Char → Bool
  | [], [] => false
  | [], _ :: _ => true
  | _ :: _, [] => false
  | a :: as, b :: bs => if a = b then lexLt as bs else decide (a < b)

/-- Python `a < b` on step values (numbers and bools compare numerically,
strings lexicographically; mixing kinds raises `TypeError`). -/
def pyLt : Val → Val → Except PyExc Bool
  | .str s, .str t => .ok (lexLt s t)
  | .num a, .num b => .ok (numLt a b)
  | .num a, .bool b => .ok (numLt a (boolNum b))
  | .bool a, .num b => .ok (numLt (boolNum a) b)
  | .bool a, .bool b => .ok (numLt (boolNum a) (boolNum b))
  | _, _ => .error .typeError

/-- Python `a > b` on step values. -/
def pyGt (a b : Val) : Except PyExc Bool := pyLt b a

/-- Python `a == b` outside the numeric/numeric case (`eq`'s else branch).
Equality on two untracked complex values is modelled as `False`. -/
def pyEqAny : Val → Val → Bool
  | .str s, .str t => s == t
  | .bool a, .bool b => a == b
  | .num a, .num b => numEq a b
  | .num a, .bool b => numEq a (boolNum b)
  | .bool a, .num b => numEq (boolNum a) b
  | _, _ => false

/-- The `eq` operator: numeric pairs use `abs(a - b) < 0.001`, the rest
plain equality. -/
def pyEqOp (a b : Val) : Except PyExc Val :=
  match a, b with
  | .num x, .num y => .ok (.bool (numLt (numAbs (numSub x y)) (.fl (1/1000))))
  | .num x, .bool y => .ok (.bool (numLt (numAbs (numSub x (boolNum y))) (.fl (1/1000))))
  | .bool x, .num y => .ok (.bool (numLt (numAbs (numSub (boolNum x) y)) (.fl (1/1000))))
  | .bool x, .bool y => .ok (.bool (numLt (numAbs (numSub (boolNum x) (boolNum y))) (.fl (1/1000))))
  | _, _ => .ok (.bool (pyEqAny a b))

/-- Python `min(args)`: first element, replaced whenever a later item
compares `<` to the current one; empty input raises `ValueError`. -/
def pyMin : List Val → Except PyExc Val
  | [] => .error .valueError
  | a :: rest =>
      rest.foldlM (fun acc x => (pyLt x acc).map (fun b => if b then x else acc)) a

/-- Python `max(args)`. -/
def pyMax : List Val → Except PyExc Val
  | [] => .error .valueError
  | a :: rest =>
      rest.foldlM (fun acc x => (pyGt x acc).map (fun b => if b then x else acc)) a

/-- The `abs` operator. -/
def pyAbs : Val → Except PyExc Val
  | .num n => .ok (.num (numAbs n))
  | .bool b => .ok (.num (.int (if b then 1 else 0)))
  | .str _ => .error .typeError
  | .complex => .ok (.num .irr)

def ratTrunc (q : ℚ) : ℤ := if 0 ≤ q then ⌊q⌋ else ⌈q⌉

/-- Python `int(b)` as used by `round`'s second argument.  A non-numeric
string raises `ValueError` (which `execute_program` does **not** catch);
`int(nan)` raises `ValueError`, `int(±inf)` raises `OverflowError`. -/
def pyIntConv : Val → Except PyExc ℤ
  | .num (.int z) => .ok z
  | .num (.fl q) => .ok (ratTrunc q)
  | .num .irr => .ok 0
  | .num .inf => .error .overflowError
  | .num .ninf => .error .overflowError
  | .num .nan => .error .valueError
  | .bool b => .ok (if b then 1 else 0)
  | .str s =>
      match pyIntParse (pyStrip s) with
      | some z => .ok z
      | none => .error .valueError
  | .complex => .error .typeError

/-- Round half to even (the rounding Python's `round` uses). -/
def roundHalfEven (q : ℚ) : ℤ :=
  let f := ⌊q⌋
  if q - f < 1/2 then f
  else if 1/2 < q - f then f + 1
  else if Even f then f else f + 1

/-- Python `round(a, n)` (two-argument form; exact-rational model of the
float case). -/
def pyRound2 (a : Val) (n : ℤ) : Except PyExc Val :=
  match a with
  | .num (.int z) =>
      if 0 ≤ n then .ok (.num (.int z))
      else
        let m : ℤ := 10 ^ (-n).toNat
        .ok (.num (.int (roundHalfEven ((z : ℚ) / (m : ℚ)) * m)))
  | .num (.fl q) =>
      .ok (.num (.fl ((roundHalfEven (q * (10 : ℚ) ^ n) : ℚ) / (10 : ℚ) ^ n)))
  | .num .irr => .ok (.num .irr)
  | .num .inf => .ok (.num .inf)
  | .num .ninf => .ok (.num .ninf)
  | .num .nan => .ok (.num .nan)
  | .bool b =>
      if 0 ≤ n then .ok (.num (.int (if b then 1 else 0)))
      else .ok (.num (.int 0))
  | .str _ => .error .typeError
  | .complex => .error .typeError

/-- The `round` operator body `round(a, int(b))`. -/
def pyRoundCall (a b : Val) : Except PyExc Val := do
  let n ← pyIntConv b
  pyRound2 a n

/-- The keys of `_OPS`. -/
inductive Op where
  | add | subtract | multiply | divide | exp
  | greater | less | eq | min | max | abs | round
deriving DecidableEq, Repr

def opsLookup (name : List Char) : Option Op :=
  if name = "add".toList then some .add
  else if name = "subtract".toList then some .subtract
  else if name = "multiply".toList then some .multiply
  else if name = "divide".toList then some .divide
  else if name = "exp".toList then some .exp
  else if name = "greater".toList then some .greater
  else if name = "less".toList then some .less
  else if name = "eq".toList then some .eq
  else if name = "min".toList then some .min
  else if name = "max".toList then some .max
  else if name = "abs".toList then some .abs
  else if name = "round".toList then some .round
  else none

/-- `_OPS[op_name](*args)`: fixed-arity lambdas raise `TypeError` on an
argument-count mismatch; `min`/`max` are variadic. -/
def applyOp : Op → List Val → Except PyExc Val
  | .add, [a, b] => pyAdd a b
  | .add, _ => .error .typeError
  | .subtract, [a, b] => pySub a b
  | .subtract, _ => .error .typeError
  | .multiply, [a, b] => pyMul a b
  | .multiply, _ => .error .typeError
  | .divide, [a, b] => pyDivide a b
  | .divide, _ => .error .typeError
  | .exp, [a, b] => pyPow a b
  | .exp, _ => .error .typeError
  | .greater, [a, b] => (pyGt a b).map Val.bool
  | .greater, _ => .error .typeError
  | .less, [a, b] => (pyLt a b).map Val.bool
  | .less, _ => .error .typeError
  | .eq, [a, b] => pyEqOp a b
  | .eq, _ => .error .typeError
  | .min, args => pyMin args
  | .max, args => pyMax args
  | .abs, [a] => pyAbs a
  | .abs, _ => .error .typeError
  | .round, [a] => pyRoundCall a (.num (.int 0))
  | .round, [a, b] => pyRoundCall a b
  | .round, _ => .error .typeError

/-! ### `scripts/pipeline/dsl.py`: parsing and execution -/

/-- `\w` over ASCII (Python's Unicode word characters beyond ASCII are not
modelled; no operator name uses them). -/
def isWordChar (c : Char) : Bool :=
  isAsciiDigit c ∨ ('a' ≤ c ∧ c ≤ 'z') ∨ ('A' ≤ c ∧ c ≤ 'Z') ∨ c = '_'

/-- `_STEP_RE = ^(\w+)\((.+)\)$` applied to a step: a nonempty word, `(`,
a nonempty body without a newline (`.` does not match `\n`), `)` at the end. -/
def parseStep (l : List Char) : Option (List Char × List Char) :=
  let w := l.takeWhile isWordChar
  if w = [] then none
  else
    match l.drop w.length with
    | '(' :: body =>
        match body.getLast? with
        | some ')' =>
            let mid := body.dropLast
            if mid ≠ [] ∧ ¬ mid.contains '\n' then some (w, mid) else none
        | _ => none
    | _ => none

/-- `_split_args`: split on depth-0 commas; `current` is accumulated in
reverse.  Each piece is stripped; only the final piece is dropped when its
stripped form is empty. -/
def splitArgsAux (depth : ℤ) (current : List Char) : List Char → List (List Char)
  | [] => if pyStrip current.reverse ≠ [] then [pyStrip current.reverse] else []
  | c :: rest =>
      if c = '(' then splitArgsAux (depth + 1) (c :: current) rest
      else if c = ')' then splitArgsAux (depth - 1) (c :: current) rest
      else if c = ',' ∧ depth = 0 then
        pyStrip current.reverse :: splitArgsAux depth [] rest
      else splitArgsAux depth (c :: current) rest

def splitArgs (l : List Char) : List (List Char) := splitArgsAux 0 [] l

/-- The `#N` branch of `_resolve_arg`: `int(arg[1:])` (`ValueError` on a
malformed index), then a bounds check (`IndexError` when out of range). -/
def resolveRef (idxStr : List Char) (results : List Val) : Except PyExc Val :=
  match pyIntParse (pyStrip idxStr) with
  | none => .error .valueError
  | some idx =>
      if idx < 0 then .error .indexError
      else
        match results.get? idx.toNat with
        | some v => .ok v
        | none => .error .indexError

/-- The literal branch of `_resolve_arg`: boolean keyword, numeric literal
(commas stripped; `float` only tried when a `.` is present), else the raw
token as an opaque string. -/
def resolveLit (arg : List Char) : Except PyExc Val :=
  if arg.map pyLower = "true".toList then .ok (.bool true)
  else if arg.map pyLower = "false".toList then .ok (.bool false)
  else
    let cleaned := arg.filter (· ≠ ',')
    if cleaned.contains '.' then
      match pyFloatParse cleaned with
      | some q => .ok (.num (.fl q))
      | none => .ok (.str arg)
    else
      match pyIntParse cleaned with
      | some z => .ok (.num (.int z))
      | none => .ok (.str arg)

/-- `_resolve_arg`. -/
def resolveArg (arg : List Char) (results : List Val) : Except PyExc Val :=
  match arg with
  | '#' :: idxStr => resolveRef idxStr results
  | _ => resolveLit arg

/-- The failure kinds of `execute_program`; every `dsl` error is a
`DSLError` carrying the 0-based step index and the (stripped) step text.
`uncaught` is an exception escaping `execute_program` unconverted. -/
inductive DslKind where
  | cannotParse
  | unknownOperation
  | argumentError
  | executionError
deriving DecidableEq, Repr

inductive Err where
  | emptyProgram
  | dsl (i : ℕ) (step : List Char) (kind : DslKind)
  | uncaught (e : PyExc)
deriving DecidableEq, Repr

/-- One loop iteration of `execute_program`:
parse, look the operation up, resolve arguments (catching `ValueError` /
`IndexError`), apply it (catching `TypeError` / `ZeroDivisionError` /
`OverflowError`). -/
def execStep (results : List Val) (i : ℕ) (raw : List Char) : Except Err Val :=
  let step := pyStrip raw
  match parseStep step with
  | none => .error (.dsl i step .cannotParse)
  | some (opName, argsStr) =>
      match opsLookup opName with
      | none => .error (.dsl i step .unknownOperation)
      | some op =>
          match (splitArgs argsStr).mapM (fun a => resolveArg a results) with
          | .error e =>
              if e = .valueError ∨ e = .indexError then
                .error (.dsl i step .argumentError)
              else .error (.uncaught e)
          | .ok args =>
              match applyOp op args with
              | .ok v => .ok v
              | .error e =>
                  if e = .typeError ∨ e = .zeroDivisionError ∨ e = .overflowError
                  then .error (.dsl i step .executionError)
                  else .error (.uncaught e)

def execGo (results : List Val) (i : ℕ) (last : Val) :
    List (List Char) → Except Err Val
  | [] => .ok last
  | s :: rest =>
      match execStep results i s with
      | .error e => .error e
      | .ok v => execGo (results ++ [v]) (i + 1) v rest

/-- `execute_program` on the program's steps as character lists. -/
def executeL : List (List Char) → Except Err Val
  | [] => .error .emptyProgram
  | s :: rest =>
      match execStep [] 0 s with
      | .error e => .error e
      | .ok v => execGo [v] 1 v rest

/-- `execute_program`. -/
def execute (program : List String) : Except Err Val :=
  executeL (program.map String.toList)

/-! ### `scripts/pipeline/s4_validate.py`: `validate_question` -/

/-- `(count of p in n, n with all factors p removed)`. -/
def stripFac (p n : ℕ) : ℕ × ℕ :=
  if h : 1 < p ∧ 0 < n ∧ n % p = 0 then
    let r := stripFac p (n / p)
    (r.1 + 1, r.2)
  else (0, n)
termination_by n
decreasing_by exact Nat.div_lt_self h.2.1 h.1

def natDigits (n : ℕ) : List Char := (Nat.repr n).toList

def intDigits (z : ℤ) : List Char :=
  (if z < 0 then ['-'] else []) ++ natDigits z.natAbs

/-- Decimal rendering of a nonnegative rational with exactly `k` fractional
digits (`k = 0` renders as an integer). -/
def decRender (n : ℕ) (k : ℕ) : List Char :=
  if k = 0 then natDigits n
  else
    let ip := n / 10 ^ k
    let fp := n % 10 ^ k
    let fd := natDigits fp
    natDigits ip ++ '.' :: (List.replicate (k - fd.length) '0' ++ fd)

/-- Model of Python `str(float)` for floats whose value is a terminating
decimal: minimal decimal digits, at least one (`3.0`, `0.25`).  Floats whose
exact value does not terminate in decimal, and the `1e16` scientific-display
cutoffs, render through a 17-fractional-digit truncation (Python's
shortest-repr output for such binary floats is not tracked; no claim
depends on it). -/
def floatRepr (q : ℚ) : List Char :=
  let sign : List Char := if q < 0 then ['-'] else []
  let den := q.den
  let s2 := stripFac 2 den
  let s5 := stripFac 5 s2.2
  if s5.2 = 1 then
    let k := max (max s2.1 s5.1) 1
    sign ++ decRender (q.num.natAbs * 10 ^ k / den) k
  else
    sign ++ decRender (q.num.natAbs * 10 ^ 17 / den) 17

/-- Model of Python `str(result)` on a step value (used by `validate_question`
to turn a numeric or leftover result into comparison text).  The values of
`irr` and `complex` results are untracked; their renderings are placeholders
(no claim depends on them). -/
def pyStrNum : NumV → List Char
  | .int z => intDigits z
  | .fl q => floatRepr q
  | .irr => "0.0".toList
  | .inf => "inf".toList
  | .ninf => "-inf".toList
  | .nan => "nan".toList

/-- `f"{result:.1f}"`: fixed-point, one fractional digit, half-to-even. -/
def fmt1 : NumV → List Char
  | .int z => intDigits z ++ ".0".toList
  | .fl q =>
      let r := roundHalfEven (q * 10)
      (if r < 0 then ['-'] else []) ++ decRender r.natAbs 1
  | .irr => "0.0".toList
  | .inf => "inf".toList
  | .ninf => "-inf".toList
  | .nan => "nan".toList

/-- `jp_true` of `validate_question`. -/
def jpTrue : List (List Char) :=
  ["はい", "増収", "増益", "改善", "一致", "増加", "true", "yes"].map
    String.toList

/-- `jp_false` of `validate_question`. -/
def jpFalse : List (List Char) :=
  ["いいえ", "減収", "減益", "悪化", "不一致", "減少", "false", "no"].map
    String.toList

/-- `MIN_PROGRAM_STEPS` from `scripts/pipeline/config.py`. -/
def minProgramSteps : ℕ := 1

/-- The `program` field value: a list of step strings, or a non-list value. -/
inductive ProgField where
  | list (steps : List String)
  | notList
deriving DecidableEq, Repr

/-- The `qa` sub-dictionary as `validate_question` reads it: the three
required fields (absent key = `none`) and `gold_evidence`
(`qa.get("gold_evidence", [])`). -/
structure QaDict where
  question : Option String
  answer : Option String
  program : Option ProgField
  goldEvidence : List Int := []
deriving DecidableEq, Repr

/-- Rejection reasons of `validate_question` (the code renders these as
`reason:detail` strings; the model keeps the structured payload). -/
inductive Reason where
  | missingField (f : String)
  | emptyQuestion
  | emptyAnswer
  | programNotList
  | tooFewSteps (n : ℕ)
  | dslError (e : Err)
  | answerMismatch
  | invalidResult
  | noGoldEvidence
deriving DecidableEq, Repr

/-- `validate_question` on the `qa` dictionary (`q.get("qa", {})`).
Returns the `(passed, reason)` pair; an exception that `execute_program`
lets escape (it catches only `DSLError`) propagates as `.error`. -/
def validateQuestion (qa : QaDict) : Except PyExc (Bool × Option Reason) :=
  if qa.question.isNone then .ok (false, some (.missingField "question"))
  else if qa.answer.isNone then .ok (false, some (.missingField "answer"))
  else if qa.program.isNone then .ok (false, some (.missingField "program"))
  else
    let q := qa.question.getD ""
    let answer := qa.answer.getD ""
    if pyStrip q.toList = [] then .ok (false, some .emptyQuestion)
    else if pyStrip answer.toList = [] then .ok (false, some .emptyAnswer)
    else
      match qa.program.getD .notList with
      | .notList => .ok (false, some .programNotList)
      | .list program =>
          if program.length < minProgramSteps then
            .ok (false, some (.tooFewSteps program.length))
          else
            match execute program with
            | .error (.uncaught e) => .error e
            | .error e => .ok (false, some (.dslError e))
            | .ok (.bool b) =>
                let rs : List Char := if b then "true".toList else "false".toList
                let na := s4NormalizeL answer.toList
                let ab :=
                  if jpTrue.contains na then "true".toList
                  else if jpFalse.contains na then "false".toList
                  else na
                if rs ≠ ab then .ok (false, some .answerMismatch)
                else if qa.goldEvidence = [] then .ok (false, some .noGoldEvidence)
                else .ok (true, none)
            | .ok (.num n) =>
                if n = .inf ∨ n = .ninf ∨ n = .nan then
                  .ok (false, some .invalidResult)
                else
                  let rs :=
                    if answer.toList.contains '%' then fmt1 n ++ "%".toList
                    else pyStrNum n
                  if ¬ s4NumericalMatch (String.mk rs) answer then
                    .ok (false, some .answerMismatch)
                  else if qa.goldEvidence = [] then .ok (false, some .noGoldEvidence)
                  else .ok (true, none)
            | .ok v =>
                let rs : List Char :=
                  match v with
                  | .str s => s
                  | _ => "(complex)".toList
                if s4NormalizeL rs ≠ s4NormalizeL answer.toList then
                  .ok (false, some .answerMismatch)
                else if qa.goldEvidence = [] then .ok (false, some .noGoldEvidence)
                else .ok (true, none)

/-! ### Predicates used by the claim statements -/

/-- The argument tokens of one raw step (empty when the step fails the
grammar — such a program errors before resolving anything). -/
def stepTokens (s : List Char) : List (List Char) :=
  match parseStep (pyStrip s) with
  | some (_, argsStr) => splitArgs argsStr
  | none => []

/-- A token that `_resolve_arg` would pass through as a raw string
(non-back-reference literal failing boolean and numeric parsing).
Resolution of non-`#` tokens does not read prior results. -/
def litIsStr (t : List Char) : Bool :=
  match resolveArg t [] with
  | .ok (.str _) => true
  | _ => false

/-- Every argument token of every step resolves to a number, boolean or
back-reference — none falls through as a raw string literal. -/
def noStrLit (p : List String) : Prop :=
  ∀ s ∈ p, ∀ t ∈ stepTokens s.toList, litIsStr t = false

instance (p : List String) : Decidable (noStrLit p) := by
  unfold noStrLit
  infer_instance

/-- No comma of the list sits between two digits (`prev` is the character
before the list's first element).  `decomma` fixes exactly such lists. -/
def noFlank (prev : Option Char) : List Char → Prop
  | [] => True
  | c :: rest => (c = ',' → ¬ (digOpt prev ∧ digHead rest)) ∧ noFlank (some c) rest

instance exceptDecEq {ε α : Type} [DecidableEq ε] [DecidableEq α] :
    DecidableEq (Except ε α) := fun
  | .error e, .error f =>
      if h : e = f then .isTrue (congrArg _ h)
      else .isFalse (fun hh => h (Except.error.inj hh))
  | .error _, .ok _ => .isFalse (fun hh => Except.noConfusion hh)
  | .ok _, .error _ => .isFalse (fun hh => Except.noConfusion hh)
  | .ok a, .ok b =>
      if h : a = b then .isTrue (congrArg _ h)
      else .isFalse (fun hh => h (Except.ok.inj hh))

/-! ### Toolkit: character facts -/

theorem char_toNat_inj {c d : Char} (h : c.toNat = d.toNat) : c = d :=
  Char.eq_of_val_eq (UInt32.toNat.inj h)

theorem char_le_toNat {c d : Char} : c ≤ d ↔ c.toNat ≤ d.toNat := Iff.rfl

theorem char_beq_toNat (c d : Char) : (c == d) = (c.toNat == d.toNat) := by
  rcases h : c.toNat == d.toNat with _ | _
  · exact beq_eq_false_iff_ne.mpr fun he => by
      simp [he] at h
  · exact beq_iff_eq.mpr (char_toNat_inj (beq_iff_eq.mp h))

theorem char_eq_toNat {c d : Char} : c = d ↔ c.toNat = d.toNat :=
  ⟨fun h => h ▸ rfl, char_toNat_inj⟩

theorem isPyWs_toNat (c : Char) :
    isPyWs c = (c.toNat == 32 || c.toNat == 9 || c.toNat == 10 ||
      c.toNat == 13 || c.toNat == 11 || c.toNat == 12 ||
      c.toNat == 160 || c.toNat == 12288) := by
  show (pyWsChars.elem c) = _
  simp only [pyWsChars, List.elem, char_beq_toNat]
  simp only [show (' ' : Char).toNat = 32 from rfl,
    show ('\t' : Char).toNat = 9 from rfl, show ('\n' : Char).toNat = 10 from rfl,
    show ('\r' : Char).toNat = 13 from rfl,
    show ('\x0b' : Char).toNat = 11 from rfl,
    show ('\x0c' : Char).toNat = 12 from rfl,
    show (' ' : Char).toNat = 160 from rfl,
    show ('　' : Char).toNat = 12288 from rfl]
  rcases h32 : c.toNat == 32 <;> rcases h9 : c.toNat == 9 <;>
    rcases h10 : c.toNat == 10 <;> rcases h13 : c.toNat == 13 <;>
    rcases h11 : c.toNat == 11 <;> rcases h12 : c.toNat == 12 <;>
    rcases h160 : c.toNat == 160 <;> rcases h3000 : c.toNat == 12288 <;>
    simp only [h32, h9, h10, h13, h11, h12, h160, h3000, Bool.false_or,
      Bool.true_or, Bool.or_true, Bool.or_false] <;> rfl

theorem isAsciiDigit_toNat (c : Char) :
    isAsciiDigit c = true ↔ 48 ≤ c.toNat ∧ c.toNat ≤ 57 := by
  show decide _ = true ↔ _
  rw [decide_eq_true_iff]
  exact Iff.rfl

theorem isPyWs_of_digit {c : Char} (h : isAsciiDigit c = true) :
    isPyWs c = false := by
  obtain ⟨h1, h2⟩ := (isAsciiDigit_toNat c).mp h
  rw [isPyWs_toNat]
  simp only [Bool.or_eq_false_iff, beq_eq_false_iff_ne]
  omega

theorem lookup_mem {v : Char} {ps : List (Char × Char)} {c : Char}
    (h : ps.lookup c = some v) : (c, v) ∈ ps := by
  induction ps with
  | nil => simp [List.lookup] at h
  | cons p rest ih =>
      rcases p with ⟨k, w⟩
      rcases hk : c == k with _ | _
      · simp only [List.lookup, hk] at h
        exact List.mem_cons_of_mem _ (ih h)
      · simp only [List.lookup, hk, Option.some.injEq] at h
        have hck : c = k := beq_iff_eq.mp hk
        subst hck
        subst h
        exact List.mem_cons_self _ _

theorem nfkc_keys_high : ∀ p ∈ nfkcPairs, p.1.toNat = 12288 ∨ 65281 ≤ p.1.toNat := by
  decide

theorem nfkcChar_fix {c : Char} (h1 : c.toNat ≠ 12288) (h2 : c.toNat < 65281) :
    nfkcChar c = c := by
  unfold nfkcChar
  rcases hl : nfkcPairs.lookup c with _ | v
  · rfl
  · rcases nfkc_keys_high _ (lookup_mem hl) with hk | hk <;> simp at hk <;> omega

theorem nfkc_vals_fixed : ∀ p ∈ nfkcPairs, nfkcChar p.2 = p.2 := by decide

theorem nfkcChar_eq_of_lookup {c v : Char} (h : nfkcPairs.lookup c = some v) :
    nfkcChar c = v := by
  unfold nfkcChar
  rw [h]
  rfl

theorem nfkcChar_idem (c : Char) : nfkcChar (nfkcChar c) = nfkcChar c := by
  rcases hl : nfkcPairs.lookup c with _ | v
  · have : nfkcChar c = c := by unfold nfkcChar; rw [hl]; rfl
    rw [this, this]
  · rw [nfkcChar_eq_of_lookup hl]
    exact nfkc_vals_fixed _ (lookup_mem hl)

theorem nfkc_ws_pres : ∀ p ∈ nfkcPairs, isPyWs p.2 = isPyWs p.1 := by decide

theorem isPyWs_nfkc (c : Char) : isPyWs (nfkcChar c) = isPyWs c := by
  rcases hl : nfkcPairs.lookup c with _ | v
  · have : nfkcChar c = c := by unfold nfkcChar; rw [hl]; rfl
    rw [this]
  · rw [nfkcChar_eq_of_lookup hl]
    exact nfkc_ws_pres _ (lookup_mem hl)

theorem upper_toNat {c : Char} (h : 'A' ≤ c ∧ c ≤ 'Z') :
    65 ≤ c.toNat ∧ c.toNat ≤ 90 := ⟨h.1, h.2⟩

theorem pyLower_toNat {c : Char} (h : 'A' ≤ c ∧ c ≤ 'Z') :
    (pyLower c).toNat = c.toNat + 32 := by
  unfold pyLower
  rw [if_pos h]
  unfold Char.ofNat
  rw [dif_pos (Or.inl (by obtain ⟨_, h2⟩ := upper_toNat h; omega))]
  rfl

theorem pyLower_fix {c : Char} (h : ¬ ('A' ≤ c ∧ c ≤ 'Z')) : pyLower c = c :=
  if_neg h

theorem pyLower_idem (c : Char) : pyLower (pyLower c) = pyLower c := by
  by_cases h : 'A' ≤ c ∧ c ≤ 'Z'
  · apply pyLower_fix
    have := pyLower_toNat h
    obtain ⟨h1, h2⟩ := upper_toNat h
    intro hcon
    obtain ⟨g1, g2⟩ := upper_toNat hcon
    omega
  · rw [pyLower_fix h, pyLower_fix h]

theorem isPyWs_eq_false {c : Char}
    (h : c.toNat ≠ 32 ∧ c.toNat ≠ 9 ∧ c.toNat ≠ 10 ∧ c.toNat ≠ 13 ∧
      c.toNat ≠ 11 ∧ c.toNat ≠ 12 ∧ c.toNat ≠ 160 ∧ c.toNat ≠ 12288) :
    isPyWs c = false := by
  rw [isPyWs_toNat]
  simp only [Bool.or_eq_false_iff, beq_eq_false_iff_ne]
  omega

theorem isPyWs_pyLower (c : Char) : isPyWs (pyLower c) = isPyWs c := by
  by_cases h : 'A' ≤ c ∧ c ≤ 'Z'
  · have hl := pyLower_toNat h
    obtain ⟨h1, h2⟩ := upper_toNat h
    rw [isPyWs_eq_false (c := pyLower c) (by omega),
      isPyWs_eq_false (c := c) (by omega)]
  · rw [pyLower_fix h]

theorem nfkc_pyLower {c : Char} (h : nfkcChar c = c) :
    nfkcChar (pyLower c) = pyLower c := by
  by_cases hu : 'A' ≤ c ∧ c ≤ 'Z'
  · have hl := pyLower_toNat hu
    obtain ⟨h1, h2⟩ := upper_toNat hu
    exact nfkcChar_fix (c := pyLower c) (by omega) (by omega)
  · rw [pyLower_fix hu]
    exact h

theorem pyLower_comma (c : Char) : (pyLower c = ',') ↔ (c = ',') := by
  constructor
  · intro h
    by_cases hu : 'A' ≤ c ∧ c ≤ 'Z'
    · have := pyLower_toNat hu
      obtain ⟨h1, h2⟩ := upper_toNat hu
      rw [char_eq_toNat, show (',' : Char).toNat = 44 from rfl] at h
      omega
    · rwa [pyLower_fix hu] at h
  · rintro rfl
    exact pyLower_fix (by decide)

theorem pyLower_digit (c : Char) : isAsciiDigit (pyLower c) = isAsciiDigit c := by
  by_cases hu : 'A' ≤ c ∧ c ≤ 'Z'
  · have hl := pyLower_toNat hu
    obtain ⟨h1, h2⟩ := upper_toNat hu
    rcases hd : isAsciiDigit c with _ | _
    · rcases hd2 : isAsciiDigit (pyLower c) with _ | _
      · rfl
      · obtain ⟨a, b⟩ := (isAsciiDigit_toNat _).mp hd2
        omega
    · obtain ⟨a, b⟩ := (isAsciiDigit_toNat _).mp hd
      omega
  · rw [pyLower_fix hu]

/-! ### Toolkit: strip / comma-removal / suffix lemmas -/

theorem dropWhile_map (f : Char → Char) (p : Char → Bool)
    (hp : ∀ c, p (f c) = p c) (l : List Char) :
    (l.map f).dropWhile p = (l.dropWhile p).map f := by
  induction l with
  | nil => rfl
  | cons a l ih =>
      simp only [List.map_cons, List.dropWhile_cons, hp a]
      rcases p a with _ | _ <;> simp [ih]

theorem pyStrip_map (f : Char → Char) (hf : ∀ c, isPyWs (f c) = isPyWs c)
    (l : List Char) : pyStrip (l.map f) = (pyStrip l).map f := by
  unfold pyStrip
  rw [dropWhile_map f _ hf, ← List.map_reverse, dropWhile_map f _ hf,
    List.map_reverse]

theorem dropWhile_head_false (p : Char → Bool) (l : List Char) (c : Char)
    (h : (l.dropWhile p).head? = some c) : p c = false := by
  induction l with
  | nil =>
      rw [List.dropWhile_nil] at h
      simp at h
  | cons a l ih =>
      rw [List.dropWhile_cons] at h
      rcases hp : p a with _ | _
      · simp [hp] at h
        exact h ▸ hp
      · simp only [hp, if_true] at h
        exact ih h

theorem dropWhile_eq_self (p : Char → Bool) (l : List Char)
    (h : ∀ c, l.head? = some c → p c = false) : l.dropWhile p = l := by
  cases l with
  | nil => rfl
  | cons a l =>
      rw [List.dropWhile_cons, h a rfl]
      simp

theorem exists_dropWhile_eq_drop (p : Char → Bool) (l : List Char) :
    ∃ k, l.dropWhile p = l.drop k := by
  induction l with
  | nil => exact ⟨0, rfl⟩
  | cons a l ih =>
      rw [List.dropWhile_cons]
      rcases p a with _ | _
      · exact ⟨0, rfl⟩
      · obtain ⟨k, hk⟩ := ih
        exact ⟨k + 1, by simpa using hk⟩

theorem getLast?_of_suffix {x l : List Char} (h : x <:+ l) (hx : x ≠ []) :
    l.getLast? = x.getLast? := by
  obtain ⟨pre, rfl⟩ := h
  exact List.getLast?_append_of_ne_nil _ hx

theorem head?_take {l : List Char} {k : ℕ} {c : Char}
    (h : (l.take k).head? = some c) : l.head? = some c := by
  cases l with
  | nil => simp at h
  | cons a l =>
      cases k with
      | zero => simp at h
      | succ k => simpa using h

/-- `pyStrip` right-trims by taking a prefix: the result is a `take`
of the left-trimmed list. -/
theorem pyStrip_eq_take (l : List Char) :
    ∃ j, pyStrip l = (l.dropWhile isPyWs).take j := by
  unfold pyStrip
  obtain ⟨k, hk⟩ := exists_dropWhile_eq_drop isPyWs (l.dropWhile isPyWs).reverse
  rw [hk, List.reverse_drop, List.reverse_reverse]
  exact ⟨_, rfl⟩

theorem pyStrip_head_false (l : List Char) (c : Char)
    (h : (pyStrip l).head? = some c) : isPyWs c = false := by
  obtain ⟨j, hj⟩ := pyStrip_eq_take l
  rw [hj] at h
  exact dropWhile_head_false _ _ _ (head?_take h)

theorem pyStrip_last_false (l : List Char) (c : Char)
    (h : (pyStrip l).getLast? = some c) : isPyWs c = false := by
  unfold pyStrip at h
  rw [List.getLast?_reverse] at h
  exact dropWhile_head_false _ _ _ h

theorem pyStrip_eq_self (l : List Char)
    (hh : ∀ c, l.head? = some c → isPyWs c = false)
    (hl : ∀ c, l.getLast? = some c → isPyWs c = false) : pyStrip l = l := by
  unfold pyStrip
  rw [dropWhile_eq_self _ _ hh]
  rw [dropWhile_eq_self _ _ (fun c hc => hl c (by rwa [← List.head?_reverse]))]
  exact List.reverse_reverse l

theorem pyStrip_idem (l : List Char) : pyStrip (pyStrip l) = pyStrip l :=
  pyStrip_eq_self _ (pyStrip_head_false l) (pyStrip_last_false l)

theorem mem_pyStrip {c : Char} {l : List Char} (h : c ∈ pyStrip l) : c ∈ l := by
  obtain ⟨j, hj⟩ := pyStrip_eq_take l
  rw [hj] at h
  have h2 := List.mem_of_mem_take h
  obtain ⟨k, hk⟩ := exists_dropWhile_eq_drop isPyWs l
  rw [hk] at h2
  exact List.mem_of_mem_drop h2

/-! #### `hasSuffix` -/

theorem hasSuffix_iff {l suf : List Char} :
    hasSuffix l suf = true ↔
      suf.length ≤ l.length ∧ l.drop (l.length - suf.length) = suf := by
  unfold hasSuffix
  rw [Bool.and_eq_true, decide_eq_true_iff, decide_eq_true_iff]

theorem hasSuffix_getLast {l suf : List Char} (h : hasSuffix l suf = true)
    (hs : suf ≠ []) : l.getLast? = suf.getLast? := by
  obtain ⟨h1, h2⟩ := hasSuffix_iff.mp h
  have : l.drop (l.length - suf.length) <:+ l := List.drop_suffix _ _
  rw [h2] at this
  exact getLast?_of_suffix this hs

theorem hasSuffix_shimashita_shita {l : List Char}
    (h : hasSuffix l shimashita = true) : hasSuffix l shita = true := by
  obtain ⟨h1, h2⟩ := hasSuffix_iff.mp h
  have hs2 : shita.length = 2 := rfl
  have hs4 : shimashita.length = 4 := rfl
  apply hasSuffix_iff.mpr
  refine ⟨by omega, ?_⟩
  have e1 : l.length - shita.length = (l.length - shimashita.length) + 2 := by
    omega
  rw [e1, ← List.drop_drop, h2]
  rfl

theorem endingStrip_eq_self {l : List Char} (h : hasSuffix l shita = false) :
    endingStrip l = l := by
  unfold endingStrip
  have h2 : hasSuffix l shimashita = false := by
    rcases hs : hasSuffix l shimashita with _ | _
    · rfl
    · have hx := hasSuffix_shimashita_shita hs
      rw [h] at hx
      exact absurd hx (by decide)
  rw [h2, h]
  simp

theorem exists_endingStrip_eq_take (l : List Char) :
    ∃ j, endingStrip l = l.take j := by
  unfold endingStrip
  rcases hasSuffix l shimashita with _ | _ <;> rcases hasSuffix l shita with _ | _
  · exact ⟨l.length, by simp⟩
  · exact ⟨l.length - 2, by simp⟩
  · exact ⟨l.length - 4, by simp⟩
  · exact ⟨l.length - 4, by simp⟩

/-! #### `decomma` -/

theorem digHead_take {l : List Char} {k : ℕ} (h : digHead (l.take k) = true) :
    digHead l = true := by
  cases l with
  | nil =>
      rw [List.take_nil] at h
      exact absurd h (by decide)
  | cons a l =>
      cases k with
      | zero =>
          rw [List.take_zero] at h
          exact absurd h (by decide)
      | succ k => simpa [digHead] using h

theorem decommaAux_cons (p : Option Char) (c : Char) (rest : List Char) :
    decommaAux p (c :: rest) =
      if c = ',' ∧ digOpt p = true ∧ digHead rest = true
      then decommaAux (some c) rest
      else c :: decommaAux (some c) rest := rfl

theorem decommaAux_cons_nondigit {p : Option Char} {c : Char} {r : List Char}
    (hp : digOpt p = false) :
    decommaAux p (c :: r) = c :: decommaAux (some c) r := by
  rw [decommaAux_cons, if_neg (by simp [hp])]

theorem noFlank_decommaAux :
    ∀ (n : ℕ) (l : List Char), l.length ≤ n → ∀ p, noFlank p (decommaAux p l)
  | _, [], _, p => trivial
  | n + 1, c :: rest, hn, p => by
      by_cases hc : c = ',' ∧ digOpt p = true ∧ digHead rest = true
      · obtain ⟨hc1, hc2, hc3⟩ := hc
        have hstep : decommaAux p (c :: rest) = decommaAux (some c) rest := by
          rw [decommaAux_cons, if_pos ⟨hc1, hc2, hc3⟩]
        rw [hstep]
        cases rest with
        | nil => simp [digHead, digOpt] at hc3
        | cons d rest' =>
            have hd : isAsciiDigit d = true := by simpa [digHead, digOpt] using hc3
            have hnd : digOpt (some c) = false := by
              subst hc1
              simp [digOpt, isAsciiDigit]
            rw [decommaAux_cons_nondigit hnd]
            refine ⟨fun hdc => ?_, ?_⟩
            · obtain ⟨a, b⟩ := (isAsciiDigit_toNat d).mp hd
              rw [char_eq_toNat] at hdc
              simp [show (',' : Char).toNat = 44 from rfl] at hdc
              omega
            · have : rest'.length ≤ n := by
                simp only [List.length_cons] at hn
                omega
              exact noFlank_decommaAux n rest' this (some d)
      · have hstep : decommaAux p (c :: rest) = c :: decommaAux (some c) rest := by
          rw [decommaAux_cons, if_neg hc]
        rw [hstep]
        refine ⟨fun hdc => fun hcon => ?_, ?_⟩
        · apply hc
          refine ⟨hdc, hcon.1, ?_⟩
          subst hdc
          cases rest with
          | nil => simpa [decommaAux, digHead] using hcon.2
          | cons x rest' =>
              rw [decommaAux_cons_nondigit (by decide)] at hcon
              simpa [digHead] using hcon.2
        · have : rest.length ≤ n := by
            simp only [List.length_cons] at hn
            omega
          exact noFlank_decommaAux n rest this (some c)

theorem noFlank_decomma (l : List Char) : noFlank none (decomma l) :=
  noFlank_decommaAux l.length l le_rfl none

theorem noFlank_mono {p q : Option Char} {l : List Char}
    (hpq : digOpt q = true → digOpt p = true) (h : noFlank p l) :
    noFlank q l := by
  cases l with
  | nil => trivial
  | cons c rest =>
      exact ⟨fun hc hcon => h.1 hc ⟨hpq hcon.1, hcon.2⟩, h.2⟩

theorem noFlank_take {p : Option Char} {l : List Char} (h : noFlank p l) :
    ∀ k, noFlank p (l.take k) := by
  induction l generalizing p with
  | nil => intro k; rw [List.take_nil]; trivial
  | cons c rest ih =>
      intro k
      cases k with
      | zero => rw [List.take_zero]; trivial
      | succ k =>
          refine ⟨fun hc hcon => h.1 hc ⟨hcon.1, digHead_take hcon.2⟩, ?_⟩
          exact ih h.2 k

theorem noFlank_map_lower {p : Option Char} {l : List Char}
    (h : noFlank p l) : noFlank (p.map pyLower) (l.map pyLower) := by
  induction l generalizing p with
  | nil => trivial
  | cons c rest ih =>
      constructor
      · intro hc hcon
        have hc' : c = ',' := (pyLower_comma c).mp hc
        apply h.1 hc'
        constructor
        · rcases p with _ | x
          · simpa using hcon.1
          · have : digOpt (some (pyLower x)) = digOpt (some x) := by
              simp [digOpt, pyLower_digit]
            simpa [this] using hcon.1
        · cases rest with
          | nil => simpa [digHead] using hcon.2
          | cons y rest' =>
              have hdh : digHead (pyLower y :: List.map pyLower rest') =
                  digHead (y :: rest') := by
                simp [digHead, digOpt, pyLower_digit]
              simpa [hdh] using hcon.2
      · exact ih h.2

theorem noFlank_dropWhile_ws {l : List Char} {p : Option Char}
    (h : noFlank p l) : noFlank none (l.dropWhile isPyWs) := by
  induction l generalizing p with
  | nil => trivial
  | cons a rest ih =>
      rw [List.dropWhile_cons]
      rcases hw : isPyWs a with _ | _
      · simp only [Bool.false_eq_true, if_false]
        refine ⟨fun hc hcon => by simpa [digOpt] using hcon.1, h.2⟩
      · simp only [if_true]
        exact ih h.2

theorem noFlank_pyStrip {l : List Char} (h : noFlank none l) :
    noFlank none (pyStrip l) := by
  obtain ⟨j, hj⟩ := pyStrip_eq_take l
  rw [hj]
  exact noFlank_take (noFlank_dropWhile_ws h) j

theorem decommaAux_eq_self {l : List Char} :
    ∀ {p : Option Char}, noFlank p l → decommaAux p l = l := by
  induction l with
  | nil => intro p _; rfl
  | cons c rest ih =>
      intro p h
      rw [decommaAux_cons, if_neg (fun hcon => h.1 hcon.1 ⟨hcon.2.1, hcon.2.2⟩)]
      rw [ih h.2]

theorem decomma_eq_self {l : List Char} (h : noFlank none l) : decomma l = l :=
  decommaAux_eq_self h

theorem decomma_cons (c : Char) (rest : List Char) :
    decomma (c :: rest) = c :: decommaAux (some c) rest := by
  unfold decomma
  rw [decommaAux_cons, if_neg (by simp [digOpt])]

theorem mem_decommaAux {c : Char} {l : List Char} :
    ∀ {p : Option Char}, c ∈ decommaAux p l → c ∈ l := by
  induction l with
  | nil => intro p h; exact absurd h (by simp [decommaAux])
  | cons a rest ih =>
      intro p h
      rw [decommaAux_cons] at h
      by_cases hc : a = ',' ∧ digOpt p = true ∧ digHead rest = true
      · rw [if_pos hc] at h
        exact List.mem_cons_of_mem _ (ih h)
      · rw [if_neg hc] at h
        rcases List.mem_cons.mp h with h1 | h2
        · exact h1 ▸ List.mem_cons_self _ _
        · exact List.mem_cons_of_mem _ (ih h2)

theorem decommaAux_no_comma {l : List Char} (hl : ∀ c ∈ l, c ≠ ',') :
    ∀ p, decommaAux p l = l := by
  induction l with
  | nil => intro p; rfl
  | cons a rest ih =>
      intro p
      rw [decommaAux_cons,
        if_neg (fun hcon => hl a (List.mem_cons_self _ _) hcon.1)]
      rw [ih (fun c hc => hl c (List.mem_cons_of_mem _ hc))]

/-! #### generic membership / filter helpers -/

theorem filter_eq_self_of {l : List Char} {p : Char → Bool}
    (h : ∀ c ∈ l, p c = true) : l.filter p = l := by
  induction l with
  | nil => rfl
  | cons a rest ih =>
      rw [List.filter_cons, if_pos (h a (List.mem_cons_self _ _))]
      rw [ih (fun c hc => h c (List.mem_cons_of_mem _ hc))]

theorem takeWhile_eq_self_of {l : List Char} {p : Char → Bool}
    (h : ∀ c ∈ l, p c = true) : l.takeWhile p = l := by
  induction l with
  | nil => rfl
  | cons a rest ih =>
      rw [List.takeWhile_cons, h a (List.mem_cons_self _ _),
        ih (fun c hc => h c (List.mem_cons_of_mem _ hc))]
      simp

theorem underscoresOk_of_no_underscore {l : List Char}
    (h : ∀ c ∈ l, c ≠ '_') : ∀ p, underscoresOk p l = true := by
  induction l with
  | nil => intro p; rfl
  | cons a rest ih =>
      intro p
      unfold underscoresOk
      rw [if_neg (h a (List.mem_cons_self _ _))]
      exact ih (fun c hc => h c (List.mem_cons_of_mem _ hc)) (some a)

theorem mem_endingStrip {c : Char} {l : List Char} (h : c ∈ endingStrip l) :
    c ∈ l := by
  obtain ⟨j, hj⟩ := exists_endingStrip_eq_take l
  rw [hj] at h
  exact List.mem_of_mem_take h

theorem map_id_of {l : List Char} {f : Char → Char}
    (h : ∀ c ∈ l, f c = c) : l.map f = l := by
  induction l with
  | nil => rfl
  | cons a rest ih =>
      rw [List.map_cons, h a (List.mem_cons_self _ _)]
      rw [ih (fun c hc => h c (List.mem_cons_of_mem _ hc))]

theorem triSub_cons (a : Char) (r : List Char) :
    triSub (a :: r) = if a = '△' ∨ a = '▲' then '-' :: r else a :: r := rfl

theorem mem_triSub {c : Char} {l : List Char} (h : c ∈ triSub l) :
    c = '-' ∨ c ∈ l := by
  cases l with
  | nil => exact absurd h (by simp [triSub])
  | cons a rest =>
      rw [triSub_cons] at h
      by_cases ha : a = '△' ∨ a = '▲'
      · rw [if_pos ha] at h
        rcases List.mem_cons.mp h with h1 | h2
        · exact Or.inl h1
        · exact Or.inr (List.mem_cons_of_mem _ h2)
      · rw [if_neg ha] at h
        exact Or.inr h

theorem pyLower_eq_nonalpha {d x : Char}
    (hx1 : ¬ (97 ≤ x.toNat ∧ x.toNat ≤ 122))
    (hx2 : ¬ (65 ≤ x.toNat ∧ x.toNat ≤ 90)) : pyLower d = x ↔ d = x := by
  constructor
  · intro h
    by_cases hu : 'A' ≤ d ∧ d ≤ 'Z'
    · have := pyLower_toNat hu
      obtain ⟨h1, h2⟩ := upper_toNat hu
      rw [char_eq_toNat] at h
      omega
    · rwa [pyLower_fix hu] at h
  · rintro rfl
    apply pyLower_fix
    intro hu
    obtain ⟨h1, h2⟩ := upper_toNat hu
    exact hx2 ⟨h1, h2⟩

/-! ## Claim C1 — symmetry of `numerical_match`

The relative difference is divided by the *gold* magnitude, so the relation
is not symmetric near the tolerance boundary. -/

/-- C1 fails as stated: at the default 1% tolerance,
`numerical_match("99", "100")` holds (1/100 ≤ 1/100) while
`numerical_match("100", "99")` does not (1/99 > 1/100). -/
theorem C1_counterexample :
    ¬ (numericalMatch "100" "99" (1/100) = numericalMatch "99" "100" (1/100)) := by
  decide

/-- C1 amended: `numerical_match` is symmetric whenever at least one side has
no extractable number — both orders then fall back to `exact_match`, which is
symmetric.  (When both sides extract, the comparison is relative to the
second argument and order can matter.) -/
theorem C1_fallback_symmetric (a b : String) (t : ℚ)
    (h : extractNumber a = none ∨ extractNumber b = none) :
    numericalMatch a b t = numericalMatch b a t := by
  unfold numericalMatch
  rcases h with ha | hb
  · rcases hb : extractNumber b with _ | q <;>
      simp [ha, hb, exactMatch, eq_comm]
  · rcases ha : extractNumber a with _ | q <;>
      simp [ha, hb, exactMatch, eq_comm]

/-- Witness for `C1_fallback_symmetric` at `a = "増加"`, `b = "42.5"`. -/
theorem C1_fallback_symmetric_witness :
    (extractNumber "増加" = none ∨ extractNumber "42.5" = none) ∧
      numericalMatch "増加" "42.5" (1/100) = numericalMatch "42.5" "増加" (1/100) :=
  ⟨Or.inl (by decide),
    C1_fallback_symmetric "増加" "42.5" (1/100) (Or.inl (by decide))⟩

/-! ## Claim C6 — division by zero yields `+inf` -/

/-- C6: the `divide` operator returns positive infinity for a zero divisor,
for every numeric dividend (the guard `b != 0` short-circuits before the
dividend is touched), and `execute_program(["divide(10,0)"])` returns `+inf`. -/
theorem C6_divide_zero_inf :
    (∀ n : NumV, applyOp .divide [.num n, .num (.int 0)] = .ok (.num .inf)) ∧
      execute ["divide(10,0)"] = .ok (.num .inf) := by
  exact ⟨fun n => rfl, by decide⟩

/-! ## Claim C10 — the two normalizers

`s4_validate._normalize` does not strip the categorical `した`/`しました`
verb endings, removes **every** comma (not only digit-flanked ones) and
replaces **every** `△`/`▲` (not only a leading one), so it is not the same
function as `jfinqa._metrics.normalize_answer`. -/

/-- C10 fails as stated: the two normalizers disagree on `"改善した"`
(`normalize_answer` strips the verb ending; `_normalize` keeps it). -/
theorem C10_counterexample :
    ¬ (s4NormalizeL "改善した".toList = normalizeAnswerL "改善した".toList) := by
  decide

/-- C10 amended: the two normalizers agree on every string whose
NFKC-normalized, stripped form contains no comma and no negative glyph and
does not end with the `した` verb suffix — on such strings both pipelines
reduce to strip-NFKC-lowercase. -/
theorem C10_agree_when_plain (s : String)
    (h1 : ∀ c ∈ nfkcMap (pyStrip s.toList), c ≠ ',' ∧ c ≠ '△' ∧ c ≠ '▲')
    (h2 : hasSuffix (nfkcMap (pyStrip s.toList)) shita = false) :
    s4NormalizeL s.toList = normalizeAnswerL s.toList := by
  set l := s.toList with hl
  set u := nfkcMap (pyStrip l) with hu
  have htri : triSub u = u := by
    cases huc : u with
    | nil => rfl
    | cons a rest =>
        rw [triSub_cons]
        rw [if_neg]
        obtain ⟨-, ha2, ha3⟩ := h1 a (huc ▸ List.mem_cons_self _ _)
        rintro (h | h) <;> [exact ha2 h; exact ha3 h]
  have hdec : decomma u = u :=
    decommaAux_no_comma (fun c hc => (h1 c hc).1) none
  have hend : endingStrip u = u := endingStrip_eq_self h2
  have hm : u.map (fun c => if c = '△' ∨ c = '▲' then '-' else c) = u :=
    map_id_of (fun c hc => by
      obtain ⟨-, h2', h3'⟩ := h1 c hc
      rw [if_neg]
      rintro (h | h) <;> [exact h2' h; exact h3' h])
  have hf : u.filter (· ≠ ',') = u :=
    filter_eq_self_of (fun c hc => by
      have := (h1 c hc).1
      simpa using this)
  have hs4 : s4NormalizeL l = u.map pyLower := by
    unfold s4NormalizeL
    rw [show nfkcMap (pyStrip l) = u from rfl, hm, hf]
  by_cases hln : l = []
  · rw [hs4]
    have hue : u = [] := by rw [hu, hln]; rfl
    rw [hue, hln]
    rfl
  · have hnorm : normalizeAnswerL l =
        pyStrip ((endingStrip (decomma (triSub u))).map pyLower) := by
      unfold normalizeAnswerL
      rw [if_neg hln]
    rw [hs4, hnorm, htri, hdec, hend]
    rw [pyStrip_map pyLower isPyWs_pyLower, hu]
    unfold nfkcMap
    rw [pyStrip_map nfkcChar isPyWs_nfkc, pyStrip_idem,
      ← pyStrip_map nfkcChar isPyWs_nfkc]

/-- Witness for `C10_agree_when_plain` at `s = "42.5%"`. -/
theorem C10_agree_when_plain_witness :
    ((∀ c ∈ nfkcMap (pyStrip "42.5%".toList), c ≠ ',' ∧ c ≠ '△' ∧ c ≠ '▲') ∧
      hasSuffix (nfkcMap (pyStrip "42.5%".toList)) shita = false) ∧
      s4NormalizeL "42.5%".toList = normalizeAnswerL "42.5%".toList :=
  ⟨⟨by decide, by decide⟩, C10_agree_when_plain "42.5%" (by decide) (by decide)⟩

/-! ## Claim C2 — idempotence of `normalize_answer`

Stripping the `した` verb suffix can expose another `した` / `しました`
ending, which a second normalization strips again, so normalization is
not idempotent in general. -/

/-- C2 fails as stated: `normalize_answer("しましたした") = "しました"`,
which a second application collapses to `""`. -/
theorem C2_counterexample :
    ¬ (normalizeAnswerL (normalizeAnswerL "しましたした".toList) =
      normalizeAnswerL "しましたした".toList) := by
  decide

/-- C2 amended: `normalize_answer` is idempotent on every input whose
normalized form does not end with the verb suffix `した` (the only
non-idempotent step is the suffix strip; every other stage fixes its own
output). -/
theorem C2_idem_unless_shita (s : String)
    (h : hasSuffix (normalizeAnswerL s.toList) shita = false) :
    normalizeAnswerL (normalizeAnswerL s.toList) = normalizeAnswerL s.toList := by
  set l := s.toList with hls
  set t := normalizeAnswerL l with ht
  by_cases htn : t = []
  · rw [htn]
    rfl
  · have hlne : l ≠ [] := fun he => htn (by rw [ht, he]; rfl)
    have htdef : t =
        pyStrip ((endingStrip (decomma (triSub (nfkcMap (pyStrip l))))).map
          pyLower) := by
      rw [ht]
      unfold normalizeAnswerL
      rw [if_neg hlne]
    have hmem : ∀ c ∈ t, ∃ e, (e = '-' ∨ ∃ f, e = nfkcChar f) ∧ c = pyLower e := by
      intro c hc
      rw [htdef] at hc
      obtain ⟨e, he, hce⟩ := List.mem_map.mp (mem_pyStrip hc)
      refine ⟨e, ?_, hce.symm⟩
      have he2 := mem_endingStrip he
      have he3 : e ∈ triSub (nfkcMap (pyStrip l)) := mem_decommaAux he2
      rcases mem_triSub he3 with h1 | h1
      · exact Or.inl h1
      · unfold nfkcMap at h1
        obtain ⟨f, _, hf2⟩ := List.mem_map.mp h1
        exact Or.inr ⟨f, hf2.symm⟩
    have hnf : ∀ c ∈ t, nfkcChar c = c := by
      intro c hc
      obtain ⟨e, he, rfl⟩ := hmem c hc
      apply nfkc_pyLower
      rcases he with rfl | ⟨f, rfl⟩
      · decide
      · exact nfkcChar_idem f
    have hlow : ∀ c ∈ t, pyLower c = c := by
      intro c hc
      obtain ⟨e, _, rfl⟩ := hmem c hc
      exact pyLower_idem e
    have hhead : ∀ c, t.head? = some c →
        c ≠ '△' ∧ c ≠ '▲' ∧ isPyWs c = false := by
      intro c hc
      have hs6 : ∀ y, ((endingStrip (decomma (triSub (nfkcMap
          (pyStrip l))))).map pyLower).head? = some y →
          y ≠ '△' ∧ y ≠ '▲' ∧ isPyWs y = false := by
        intro y hy
        rcases hX : endingStrip (decomma (triSub (nfkcMap (pyStrip l)))) with
          _ | ⟨e0, X'⟩
        · rw [hX] at hy
          exact absurd hy (by simp)
        · rw [hX, List.map_cons, List.head?_cons, Option.some.injEq] at hy
          subst hy
          have hed : (decomma (triSub (nfkcMap (pyStrip l)))).head? =
              some e0 := by
            obtain ⟨j, hj⟩ := exists_endingStrip_eq_take
              (decomma (triSub (nfkcMap (pyStrip l))))
            rw [hj] at hX
            exact head?_take (by rw [hX]; rfl)
          rcases hu : pyStrip l with _ | ⟨f0, u'⟩
          · rw [hu] at hed
            exact absurd hed (by simp [nfkcMap, triSub, decomma, decommaAux])
          · have hfw : isPyWs f0 = false :=
              pyStrip_head_false l f0 (by rw [hu]; rfl)
            rw [hu] at hed
            have : nfkcMap (f0 :: u') = nfkcChar f0 :: u'.map nfkcChar := rfl
            rw [this, triSub_cons] at hed
            by_cases htr : nfkcChar f0 = '△' ∨ nfkcChar f0 = '▲'
            · rw [if_pos htr, decomma_cons, List.head?_cons,
                Option.some.injEq] at hed
              subst hed
              refine ⟨by decide, by decide, by decide⟩
            · rw [if_neg htr, decomma_cons, List.head?_cons,
                Option.some.injEq] at hed
              subst hed
              push_neg at htr
              refine ⟨?_, ?_, ?_⟩
              · intro hcon
                exact htr.1 ((pyLower_eq_nonalpha (by decide) (by decide)).mp hcon)
              · intro hcon
                exact htr.2 ((pyLower_eq_nonalpha (by decide) (by decide)).mp hcon)
              · rw [isPyWs_pyLower, isPyWs_nfkc]
                exact hfw
      have hs6ne : (((endingStrip (decomma (triSub (nfkcMap
          (pyStrip l))))).map pyLower)) ≠ [] := by
        intro he
        rw [htdef, he] at htn
        exact htn rfl
      rcases hs6c : ((endingStrip (decomma (triSub (nfkcMap
          (pyStrip l))))).map pyLower) with _ | ⟨y0, s6'⟩
      · exact absurd hs6c hs6ne
      · obtain ⟨hy1, hy2, hy3⟩ := hs6 y0 (by rw [hs6c]; rfl)
        have hdw : (y0 :: s6').dropWhile isPyWs = y0 :: s6' :=
          dropWhile_eq_self _ _ (by
            intro z hz
            rw [List.head?_cons, Option.some.injEq] at hz
            subst hz
            exact hy3)
        obtain ⟨j, hj⟩ := pyStrip_eq_take ((endingStrip (decomma (triSub
          (nfkcMap (pyStrip l))))).map pyLower)
        rw [htdef, hj, hs6c, hdw] at hc
        have := head?_take hc
        rw [List.head?_cons, Option.some.injEq] at this
        subst this
        exact hs6 y0 (by rw [hs6c]; rfl)
    have hpy1 : pyStrip t = t := by
      rw [htdef]
      exact pyStrip_idem _
    have h2 : nfkcMap t = t := map_id_of hnf
    have h3 : triSub t = t := by
      rcases htc : t with _ | ⟨c0, t'⟩
      · rfl
      · rw [triSub_cons, if_neg]
        obtain ⟨ha, hb, -⟩ := hhead c0 (by rw [htc]; rfl)
        rintro (hcon | hcon) <;> [exact ha hcon; exact hb hcon]
    have h4 : decomma t = t := by
      apply decomma_eq_self
      have n0 : noFlank none (decomma (triSub (nfkcMap (pyStrip l)))) :=
        noFlank_decomma _
      have n1 : noFlank none (endingStrip (decomma (triSub (nfkcMap
          (pyStrip l))))) := by
        obtain ⟨j, hj⟩ := exists_endingStrip_eq_take
          (decomma (triSub (nfkcMap (pyStrip l))))
        rw [hj]
        exact noFlank_take n0 j
      have n2 : noFlank none ((endingStrip (decomma (triSub (nfkcMap
          (pyStrip l))))).map pyLower) := by
        have := noFlank_map_lower n1
        simpa using this
      rw [htdef]
      exact noFlank_pyStrip n2
    have h5 : endingStrip t = t := endingStrip_eq_self (ht ▸ h)
    have h6 : t.map pyLower = t := map_id_of hlow
    conv_lhs => rw [show normalizeAnswerL t =
      pyStrip ((endingStrip (decomma (triSub (nfkcMap (pyStrip t))))).map
        pyLower) from by unfold normalizeAnswerL; rw [if_neg htn]]
    rw [hpy1, h2, h3, h4, h5, h6, hpy1]

/-- Witness for `C2_idem_unless_shita` at `s = "△1,000"`
(its normalized form is `"-1000"`). -/
theorem C2_idem_unless_shita_witness :
    hasSuffix (normalizeAnswerL "△1,000".toList) shita = false ∧
      normalizeAnswerL (normalizeAnswerL "△1,000".toList) =
        normalizeAnswerL "△1,000".toList :=
  ⟨by decide, C2_idem_unless_shita "△1,000" (by decide)⟩

/-! ## Claim C7 — the validator rejects infinite / NaN program results -/

/-- C7: for every QA candidate that passes the schema and step-count checks
and whose program executes to an infinite or NaN numeric result,
`validate_question` returns `(False, invalid_result)`. -/
theorem C7_reject_nonfinite (qa : QaDict) (q a : String)
    (steps : List String) (n : NumV)
    (hq : qa.question = some q) (hqs : pyStrip q.toList ≠ [])
    (ha : qa.answer = some a) (has : pyStrip a.toList ≠ [])
    (hp : qa.program = some (.list steps))
    (hlen : minProgramSteps ≤ steps.length)
    (hex : execute steps = .ok (.num n))
    (hni : n = .inf ∨ n = .ninf ∨ n = .nan) :
    validateQuestion qa = .ok (false, some .invalidResult) := by
  unfold validateQuestion
  rw [hq, ha, hp]
  simp only [Option.isNone_some, Bool.false_eq_true, if_false,
    Option.getD_some]
  rw [if_neg hqs, if_neg has]
  have hnl : ¬ steps.length < minProgramSteps := by omega
  rw [if_neg hnl, hex]
  rcases hni with rfl | rfl | rfl <;> rfl

/-- Witness for `C7_reject_nonfinite`: a schema-complete candidate whose
program is `["divide(10,0)"]`. -/
theorem C7_reject_nonfinite_witness :
    ((⟨some "q?", some "1", some (.list ["divide(10,0)"]), [0]⟩ :
        QaDict).question = some "q?" ∧
      pyStrip "q?".toList ≠ [] ∧
      execute ["divide(10,0)"] = .ok (.num .inf)) ∧
    validateQuestion ⟨some "q?", some "1", some (.list ["divide(10,0)"]), [0]⟩ =
      .ok (false, some .invalidResult) :=
  ⟨⟨rfl, by decide, by decide⟩,
    C7_reject_nonfinite _ "q?" "1" ["divide(10,0)"] .inf rfl (by decide) rfl
      (by decide) rfl (by decide) (by decide) (Or.inl rfl)⟩

/-! ## Claim C4 — arithmetic on non-numeric operands

Python's operators make the claim false: `add` on two strings concatenates
and `multiply` of a string by an integer repeats it — no error is raised
and the operands are silently combined.  (Booleans are silently cast to
0/1 as well: `add(true,true)` returns 2.) -/

/-- C4 fails as stated: `execute_program(["add(a,b)"])` returns the
concatenated string `"ab"` instead of raising. -/
theorem C4_counterexample : execute ["add(a,b)"] = .ok (.str ['a', 'b']) := by
  decide

/-- C4 amended: `subtract` and `exp` raise `TypeError` on any string
operand; `divide` raises when the divisor is a string, or when the dividend
is a string and the divisor is non-zero (a zero divisor short-circuits to
`+inf`); `add` raises when exactly one operand is a string (two strings
concatenate); `multiply` raises when a string meets a non-integer.
Inside `execute_program` the `TypeError` is caught and re-raised as
`DSLError`. -/
theorem C4_string_operand_errors (s : List Char) (v : Val) :
    applyOp .subtract [.str s, v] = .error .typeError ∧
    applyOp .subtract [v, .str s] = .error .typeError ∧
    applyOp .exp [.str s, v] = .error .typeError ∧
    applyOp .exp [v, .str s] = .error .typeError ∧
    applyOp .divide [v, .str s] = .error .typeError ∧
    (pyNeZero v = true → applyOp .divide [.str s, v] = .error .typeError) ∧
    (v.isStrV = false → applyOp .add [.str s, v] = .error .typeError ∧
      applyOp .add [v, .str s] = .error .typeError) ∧
    (∀ q : ℚ, applyOp .multiply [.str s, .num (.fl q)] = .error .typeError) := by
  refine ⟨?_, ?_, ?_, ?_, ?_, ?_, ?_, ?_⟩
  · cases v <;> rfl
  · cases v <;> rfl
  · cases v <;> rfl
  · cases v <;> rfl
  · cases v <;> rfl
  · intro hv
    show pyDivide (.str s) v = .error .typeError
    unfold pyDivide
    rw [if_pos hv]
    cases v <;> rfl
  · intro hv
    cases v with
    | str t => exact absurd hv (by simp [Val.isStrV])
    | num n => exact ⟨rfl, rfl⟩
    | bool b => exact ⟨rfl, rfl⟩
    | complex => exact ⟨rfl, rfl⟩
  · intro q
    rfl

/-- Witness for `C4_string_operand_errors` at `s = "a"`, `v = 1`. -/
theorem C4_string_operand_errors_witness :
    (pyNeZero (.num (.int 1)) = true ∧ (Val.num (.int 1)).isStrV = false) ∧
      applyOp .divide [.str ['a'], .num (.int 1)] = .error .typeError ∧
      applyOp .add [.str ['a'], .num (.int 1)] = .error .typeError :=
  ⟨⟨by decide, by decide⟩,
    (C4_string_operand_errors ['a'] (.num (.int 1))).2.2.2.2.2.1 (by decide),
    ((C4_string_operand_errors ['a'] (.num (.int 1))).2.2.2.2.2.2.1
      (by decide)).1⟩

/-! ## Claim C3 — kinds of final results

`_resolve_arg` passes unparseable tokens through as raw strings, and
`min`/`max`/`add`/`multiply` can return them, so a raw string can be the
final result. -/

/-- C3 fails as stated: `execute_program(["min(a,b)"])` returns the raw
string `"a"` (neither a float nor a bool), without raising. -/
theorem C3_counterexample : execute ["min(a,b)"] = .ok (.str ['a']) := by
  decide

theorem resolveArg_hash (idxStr : List Char) (results : List Val) :
    resolveArg ('#' :: idxStr) results = resolveRef idxStr results := rfl

theorem resolveArg_eq_lit {t : List Char} (results : List Val)
    (h : t.head? ≠ some '#') : resolveArg t results = resolveLit t := by
  cases t with
  | nil => rfl
  | cons c rest =>
      rcases hc : c == '#' with _ | _
      · cases t2 : rest <;>
          · show resolveArg (c :: _) results = _
            unfold resolveArg
            split
            · rename_i heq
              injection heq with h1 h2
              rw [h1] at hc
              simp at hc
            · rfl
      · have : c = '#' := beq_iff_eq.mp hc
        subst this
        exact absurd rfl h

theorem mem_of_get? {l : List Val} {n : ℕ} {v : Val}
    (h : l.get? n = some v) : v ∈ l := by
  induction l generalizing n with
  | nil => simp [List.get?] at h
  | cons a rest ih =>
      cases n with
      | zero =>
          simp only [List.get?, Option.some.injEq] at h
          exact h ▸ List.mem_cons_self _ _
      | succ n => exact List.mem_cons_of_mem _ (ih h)

theorem resolveRef_ok_mem {idxStr : List Char} {results : List Val} {v : Val}
    (h : resolveRef idxStr results = .ok v) : v ∈ results := by
  unfold resolveRef at h
  split at h
  · exact absurd h (by simp)
  · split at h
    · exact absurd h (by simp)
    · split at h
      · rename_i hg
        injection h with h
        exact h ▸ mem_of_get? hg
      · exact absurd h (by simp)

theorem resolveArg_not_str {t : List Char} {results : List Val} {v : Val}
    (hres : ∀ r ∈ results, r.isStrV = false)
    (hlit : litIsStr t = false)
    (h : resolveArg t results = .ok v) : v.isStrV = false := by
  by_cases hh : t.head? = some '#'
  · cases t with
    | nil => simp at hh
    | cons c rest =>
        rw [List.head?_cons, Option.some.injEq] at hh
        subst hh
        rw [resolveArg_hash] at h
        exact hres v (resolveRef_ok_mem h)
  · rw [resolveArg_eq_lit results hh] at h
    unfold litIsStr at hlit
    rw [resolveArg_eq_lit [] hh, h] at hlit
    cases v with
    | str s => exact Bool.noConfusion hlit
    | num n => rfl
    | bool b => rfl
    | complex => rfl

theorem numPow_not_str {x y : NumV} {v : Val} (h : numPow x y = .ok v) :
    v.isStrV = false := by
  unfold numPow numPowInt numPowFrac at h
  repeat' split at h
  all_goals try (injection h with h)
  all_goals first
    | rfl
    | (rw [← h]; rfl)
    | simp_all [Val.isStrV]

theorem foldlM_min_mem {f : Val → Val → Except PyExc Val}
    (hf : ∀ acc x v, f acc x = .ok v → v = acc ∨ v = x) :
    ∀ (rest : List Val) (acc v : Val),
      List.foldlM f acc rest = .ok v → v = acc ∨ v ∈ rest := by
  intro rest
  induction rest with
  | nil =>
      intro acc v h
      injection h with h
      exact Or.inl h.symm
  | cons x rs ih =>
      intro acc v h
      rw [List.foldlM_cons] at h
      rcases hfa : f acc x with e | acc'
      · rw [hfa] at h
        exact Except.noConfusion h
      · rw [hfa] at h
        have hstep : acc' = acc ∨ acc' = x := hf acc x acc' hfa
        have h2 : List.foldlM f acc' rs = .ok v := h
        rcases ih acc' v h2 with h3 | h3
        · subst h3
          rcases hstep with h4 | h4
          · exact Or.inl h4
          · exact Or.inr (h4 ▸ List.mem_cons_self _ _)
        · exact Or.inr (List.mem_cons_of_mem _ h3)

theorem pyMin_ok_mem {args : List Val} {v : Val} (h : pyMin args = .ok v) :
    v ∈ args := by
  cases args with
  | nil => exact absurd h (by simp [pyMin])
  | cons a rest =>
      unfold pyMin at h
      have := foldlM_min_mem (f := fun acc x =>
        (pyLt x acc).map (fun b => if b then x else acc)) ?_ rest a v h
      · rcases this with h1 | h1
        · exact h1 ▸ List.mem_cons_self _ _
        · exact List.mem_cons_of_mem _ h1
      · intro acc x w hw
        simp only [] at hw
        rcases hl : pyLt x acc with e | b
        · rw [hl] at hw
          exact Except.noConfusion hw
        · rw [hl] at hw
          simp only [Except.map, Except.ok.injEq] at hw
          rcases b with _ | _
          · simp at hw
            exact Or.inl hw.symm
          · simp at hw
            exact Or.inr hw.symm

theorem pyMax_ok_mem {args : List Val} {v : Val} (h : pyMax args = .ok v) :
    v ∈ args := by
  cases args with
  | nil => exact absurd h (by simp [pyMax])
  | cons a rest =>
      unfold pyMax at h
      have := foldlM_min_mem (f := fun acc x =>
        (pyGt x acc).map (fun b => if b then x else acc)) ?_ rest a v h
      · rcases this with h1 | h1
        · exact h1 ▸ List.mem_cons_self _ _
        · exact List.mem_cons_of_mem _ h1
      · intro acc x w hw
        simp only [] at hw
        rcases hl : pyGt x acc with e | b
        · rw [hl] at hw
          exact Except.noConfusion hw
        · rw [hl] at hw
          simp only [Except.map, Except.ok.injEq] at hw
          rcases b with _ | _
          · simp at hw
            exact Or.inl hw.symm
          · simp at hw
            exact Or.inr hw.symm

theorem applyOp_not_str {op : Op} {args : List Val} {v : Val}
    (hargs : ∀ a ∈ args, a.isStrV = false)
    (h : applyOp op args = .ok v) : v.isStrV = false := by
  cases op with
  | add =>
      rcases args with _ | ⟨a, _ | ⟨b, _ | ⟨c, rest⟩⟩⟩
      · exact Except.noConfusion h
      · exact Except.noConfusion h
      · have ha := hargs a (List.mem_cons_self _ _)
        have hb := hargs b (List.mem_cons_of_mem _ (List.mem_cons_self _ _))
        replace h : pyAdd a b = .ok v := h
        cases a <;> cases b <;>
          first
            | exact Bool.noConfusion ha
            | exact Bool.noConfusion hb
            | (injection h with h; rw [← h]; rfl)
            | (rename_i x y; cases x <;> cases y <;>
                (injection h with h; rw [← h]; rfl))
            | (rename_i x; cases x <;> (injection h with h; rw [← h]; rfl))
      · exact Except.noConfusion h
  | subtract =>
      rcases args with _ | ⟨a, _ | ⟨b, _ | ⟨c, rest⟩⟩⟩
      · exact Except.noConfusion h
      · exact Except.noConfusion h
      · have ha := hargs a (List.mem_cons_self _ _)
        have hb := hargs b (List.mem_cons_of_mem _ (List.mem_cons_self _ _))
        replace h : pySub a b = .ok v := h
        cases a <;> cases b <;>
          first
            | exact Bool.noConfusion ha
            | exact Bool.noConfusion hb
            | (injection h with h; rw [← h]; rfl)
            | (rename_i x y; cases x <;> cases y <;>
                (injection h with h; rw [← h]; rfl))
            | (rename_i x; cases x <;> (injection h with h; rw [← h]; rfl))
      · exact Except.noConfusion h
  | multiply =>
      rcases args with _ | ⟨a, _ | ⟨b, _ | ⟨c, rest⟩⟩⟩
      · exact Except.noConfusion h
      · exact Except.noConfusion h
      · have ha := hargs a (List.mem_cons_self _ _)
        have hb := hargs b (List.mem_cons_of_mem _ (List.mem_cons_self _ _))
        replace h : pyMul a b = .ok v := h
        cases a <;> cases b <;>
          first
            | exact Bool.noConfusion ha
            | exact Bool.noConfusion hb
            | (injection h with h; rw [← h]; rfl)
            | (rename_i x y; cases x <;> cases y <;>
                (injection h with h; rw [← h]; rfl))
            | (rename_i x; cases x <;> (injection h with h; rw [← h]; rfl))
      · exact Except.noConfusion h
  | divide =>
      rcases args with _ | ⟨a, _ | ⟨b, _ | ⟨c, rest⟩⟩⟩
      · exact Except.noConfusion h
      · exact Except.noConfusion h
      · have ha := hargs a (List.mem_cons_self _ _)
        have hb := hargs b (List.mem_cons_of_mem _ (List.mem_cons_self _ _))
        replace h : pyDivide a b = .ok v := h
        unfold pyDivide at h
        split at h
        · cases a <;> cases b <;>
            first
              | exact Bool.noConfusion ha
              | exact Bool.noConfusion hb
              | (injection h with h; rw [← h]; rfl)
              | (rename_i x y; cases x <;> cases y <;>
                  (injection h with h; rw [← h]; rfl))
              | (rename_i x; cases x <;> (injection h with h; rw [← h]; rfl))
        · injection h with h
          rw [← h]
          rfl
      · exact Except.noConfusion h
  | exp =>
      rcases args with _ | ⟨a, _ | ⟨b, _ | ⟨c, rest⟩⟩⟩
      · exact Except.noConfusion h
      · exact Except.noConfusion h
      · have ha := hargs a (List.mem_cons_self _ _)
        have hb := hargs b (List.mem_cons_of_mem _ (List.mem_cons_self _ _))
        replace h : pyPow a b = .ok v := h
        cases a with
        | str sa => exact Bool.noConfusion ha
        | complex =>
            cases b <;>
              first
                | exact Bool.noConfusion hb
                | (injection h with h; rw [← h]; rfl)
        | num x =>
            cases b with
            | str tb => exact Bool.noConfusion hb
            | num y => exact numPow_not_str (x := x) (y := y) h
            | bool bb => exact numPow_not_str (x := x) (y := boolNum bb) h
            | complex => injection h with h; rw [← h]; rfl
        | bool ab =>
            cases b with
            | str tb => exact Bool.noConfusion hb
            | num y => exact numPow_not_str (x := boolNum ab) (y := y) h
            | bool bb => exact numPow_not_str (x := boolNum ab) (y := boolNum bb) h
            | complex => injection h with h; rw [← h]; rfl
      · exact Except.noConfusion h
  | greater =>
      rcases args with _ | ⟨a, _ | ⟨b, _ | ⟨c, rest⟩⟩⟩
      · exact Except.noConfusion h
      · exact Except.noConfusion h
      · replace h : Except.map Val.bool (pyGt a b) = .ok v := h
        rcases hl : pyGt a b with e | bb <;> rw [hl] at h
        · exact Except.noConfusion h
        · simp only [Except.map, Except.ok.injEq] at h
          rw [← h]
          rfl
      · exact Except.noConfusion h
  | less =>
      rcases args with _ | ⟨a, _ | ⟨b, _ | ⟨c, rest⟩⟩⟩
      · exact Except.noConfusion h
      · exact Except.noConfusion h
      · replace h : Except.map Val.bool (pyLt a b) = .ok v := h
        rcases hl : pyLt a b with e | bb <;> rw [hl] at h
        · exact Except.noConfusion h
        · simp only [Except.map, Except.ok.injEq] at h
          rw [← h]
          rfl
      · exact Except.noConfusion h
  | eq =>
      rcases args with _ | ⟨a, _ | ⟨b, _ | ⟨c, rest⟩⟩⟩
      · exact Except.noConfusion h
      · exact Except.noConfusion h
      · replace h : pyEqOp a b = .ok v := h
        unfold pyEqOp at h
        repeat' split at h
        all_goals (injection h with h; rw [← h]; rfl)
      · exact Except.noConfusion h
  | min => exact hargs v (pyMin_ok_mem h)
  | max => exact hargs v (pyMax_ok_mem h)
  | abs =>
      rcases args with _ | ⟨a, _ | ⟨b, rest⟩⟩
      · exact Except.noConfusion h
      · have ha := hargs a (List.mem_cons_self _ _)
        replace h : pyAbs a = .ok v := h
        cases a <;>
          first
            | exact Bool.noConfusion ha
            | (injection h with h; rw [← h]; rfl)
      · exact Except.noConfusion h
  | round =>
      rcases args with _ | ⟨a, _ | ⟨b, _ | ⟨c, rest⟩⟩⟩
      · exact Except.noConfusion h
      · replace h : pyRoundCall a (.num (.int 0)) = .ok v := h
        unfold pyRoundCall at h
        rcases hic : pyIntConv (Val.num (NumV.int 0)) with e | n <;>
          rw [hic] at h
        · exact Except.noConfusion h
        · replace h : pyRound2 a n = .ok v := h
          unfold pyRound2 at h
          repeat' split at h
          all_goals try (injection h with h)
          all_goals first
            | rfl
            | (rw [← h]; rfl)
            | (injection h with h; rw [← h]; rfl)
            | simp_all [Val.isStrV]
      · replace h : pyRoundCall a b = .ok v := h
        unfold pyRoundCall at h
        rcases hic : pyIntConv b with e | n <;> rw [hic] at h
        · exact Except.noConfusion h
        · replace h : pyRound2 a n = .ok v := h
          unfold pyRound2 at h
          repeat' split at h
          all_goals try (injection h with h)
          all_goals first
            | rfl
            | (rw [← h]; rfl)
            | (injection h with h; rw [← h]; rfl)
            | simp_all [Val.isStrV]
      · exact Except.noConfusion h

theorem mapM_resolve_ok {results : List Val} :
    ∀ {ts : List (List Char)} {args : List Val},
      ts.mapM (fun a => resolveArg a results) = .ok args →
      ∀ a ∈ args, ∃ t ∈ ts, resolveArg t results = .ok a := by
  intro ts
  induction ts with
  | nil =>
      intro args h a ha
      rw [List.mapM_nil] at h
      injection h with h
      rw [← h] at ha
      exact absurd ha (by simp)
  | cons t ts ih =>
      intro args h a ha
      rw [List.mapM_cons] at h
      rcases hr : resolveArg t results with e | w <;> rw [hr] at h
      · exact Except.noConfusion h
      · rcases hm : ts.mapM (fun a => resolveArg a results) with e | ws <;>
          rw [hm] at h
        · exact Except.noConfusion h
        · replace h : Except.ok (w :: ws) = Except.ok args := h
          injection h with h
          rw [← h] at ha
          rcases List.mem_cons.mp ha with h1 | h1
          · exact ⟨t, List.mem_cons_self _ _, h1 ▸ hr⟩
          · obtain ⟨t', ht', hres⟩ := ih hm a h1
            exact ⟨t', List.mem_cons_of_mem _ ht', hres⟩

theorem execStep_not_str {results : List Val} {i : ℕ} {s : List Char} {v : Val}
    (hres : ∀ r ∈ results, r.isStrV = false)
    (hs : ∀ t ∈ stepTokens s, litIsStr t = false)
    (h : execStep results i s = .ok v) : v.isStrV = false := by
  simp only [execStep] at h
  split at h
  · exact Except.noConfusion h
  · rename_i opName argsStr hparse
    split at h
    · exact Except.noConfusion h
    · rename_i op hop
      split at h
      · split at h <;> exact Except.noConfusion h
      · rename_i args hargs
        have hnostr : ∀ a ∈ args, a.isStrV = false := by
          intro a ha
          obtain ⟨t, ht, hta⟩ := mapM_resolve_ok hargs a ha
          apply resolveArg_not_str hres _ hta
          apply hs
          unfold stepTokens
          rw [hparse]
          exact ht
        split at h
        · rename_i w happ
          injection h with h
          exact h ▸ applyOp_not_str hnostr happ
        · split at h <;> exact Except.noConfusion h

theorem execGo_not_str :
    ∀ (steps : List (List Char)) (results : List Val) (i : ℕ) (last v : Val),
      (∀ r ∈ results, r.isStrV = false) → last.isStrV = false →
      (∀ s ∈ steps, ∀ t ∈ stepTokens s, litIsStr t = false) →
      execGo results i last steps = .ok v → v.isStrV = false := by
  intro steps
  induction steps with
  | nil =>
      intro results i last v _ hlast _ h
      injection h with h
      exact h ▸ hlast
  | cons s rest ih =>
      intro results i last v hres hlast hsteps h
      unfold execGo at h
      split at h
      · exact Except.noConfusion h
      · rename_i w hw
        have hwn : w.isStrV = false :=
          execStep_not_str hres (hsteps s (List.mem_cons_self _ _)) hw
        apply ih (results ++ [w]) (i + 1) w v _ hwn _ h
        · intro r hr
          rcases List.mem_append.mp hr with h1 | h1
          · exact hres r h1
          · rw [List.mem_singleton.mp h1]
            exact hwn
        · intro s' hs'
          exact hsteps s' (List.mem_cons_of_mem _ hs')

/-- C3 amended: when every argument token of the program resolves to a
number, boolean or back-reference (no raw-string fall-through), the final
result is never a raw string.  (Unparseable tokens flow through as strings
and can be returned, as `C3_counterexample` shows.) -/
theorem C3_no_string_result (p : List String) (hp : noStrLit p) (v : Val)
    (h : execute p = .ok v) : v.isStrV = false := by
  unfold execute at h
  cases p with
  | nil => exact Except.noConfusion h
  | cons s rest =>
      rw [List.map_cons] at h
      replace h : (match execStep [] 0 s.toList with
        | .error e => (.error e : Except Err Val)
        | .ok v0 => execGo [v0] 1 v0 (rest.map String.toList)) = .ok v := h
      split at h
      · exact Except.noConfusion h
      · rename_i w hw
        have hwn : w.isStrV = false := by
          apply execStep_not_str (by simp) _ hw
          exact hp s (List.mem_cons_self _ _)
        apply execGo_not_str (rest.map String.toList) [w] 1 w v _ hwn _ h
        · intro r hr
          rw [List.mem_singleton.mp hr]
          exact hwn
        · intro s' hs'
          obtain ⟨x, hx, rfl⟩ := List.mem_map.mp hs'
          exact hp x (List.mem_cons_of_mem _ hx)

/-- Witness for `C3_no_string_result` at `p = ["add(1,2)"]`. -/
theorem C3_no_string_result_witness :
    noStrLit ["add(1,2)"] ∧ execute ["add(1,2)"] = .ok (.num (.int 3)) ∧
      (Val.num (.int 3)).isStrV = false :=
  ⟨by decide, by decide,
    C3_no_string_result ["add(1,2)"] (by decide) (.num (.int 3)) (by decide)⟩

/-! ## Claim C5 — error taxonomy of `execute_program`

`execute_program` catches `ValueError`/`IndexError` during argument
resolution and `TypeError`/`ZeroDivisionError`/`OverflowError` during
operator application — but a `ValueError` raised *inside* an operator
(`round`'s `int(b)` on a non-numeric string or NaN, or `min`/`max` on an
empty argument list) is in neither catch list and escapes uncaught. -/

/-- C5 fails as stated: `execute_program(["round(1,a)"])` raises an
uncaught `ValueError` from `int("a")`, not a `DSLError`. -/
theorem C5_counterexample :
    execute ["round(1,a)"] = .error (.uncaught .valueError) := by
  decide

theorem resolveArg_error_kinds {t : List Char} {results : List Val}
    {e : PyExc} (h : resolveArg t results = .error e) :
    e = .valueError ∨ e = .indexError := by
  unfold resolveArg at h
  split at h
  · unfold resolveRef at h
    repeat' split at h
    all_goals first
      | exact Except.noConfusion h
      | (injection h with h; rw [← h]; simp)
  · simp only [resolveLit] at h
    repeat' split at h
    all_goals exact Except.noConfusion h

theorem mapM_resolve_error {results : List Val} :
    ∀ {ts : List (List Char)} {e : PyExc},
      ts.mapM (fun a => resolveArg a results) = .error e →
      e = .valueError ∨ e = .indexError := by
  intro ts
  induction ts with
  | nil =>
      intro e h
      rw [List.mapM_nil] at h
      exact Except.noConfusion h
  | cons t ts ih =>
      intro e h
      rw [List.mapM_cons] at h
      rcases hr : resolveArg t results with e' | w <;> rw [hr] at h
      · replace h : Except.error e' = Except.error e := h
        injection h with h
        exact h ▸ resolveArg_error_kinds hr
      · rcases hm : ts.mapM (fun a => resolveArg a results) with e' | ws <;>
          rw [hm] at h
        · replace h : Except.error e' = Except.error e := h
          injection h with h
          exact h ▸ ih hm
        · exact Except.noConfusion h

theorem numPow_error {x y : NumV} {e : PyExc} (h : numPow x y = .error e) :
    e = .zeroDivisionError := by
  unfold numPow numPowInt numPowFrac at h
  repeat' split at h
  all_goals first
    | exact Except.noConfusion h
    | (injection h with h; exact h.symm)

theorem pyLt_error {a b : Val} {e : PyExc} (h : pyLt a b = .error e) :
    e = .typeError := by
  cases a <;> cases b <;>
    first
      | exact Except.noConfusion h
      | (injection h with h; exact h.symm)

theorem foldlM_cmp_error {f : Val → Val → Except PyExc Val}
    (hf : ∀ acc x e, f acc x = .error e → e = .typeError) :
    ∀ (rest : List Val) (acc : Val) (e : PyExc),
      List.foldlM f acc rest = .error e → e = .typeError := by
  intro rest
  induction rest with
  | nil =>
      intro acc e h
      exact Except.noConfusion h
  | cons x rs ih =>
      intro acc e h
      rw [List.foldlM_cons] at h
      rcases hfa : f acc x with e' | acc' <;> rw [hfa] at h
      · replace h : Except.error e' = Except.error e := h
        injection h with h
        exact h ▸ hf acc x e' hfa
      · exact ih acc' e h

theorem pyMin_error {args : List Val} {e : PyExc} (h : pyMin args = .error e) :
    e = .valueError ∨ e = .typeError := by
  cases args with
  | nil =>
      replace h : Except.error PyExc.valueError = Except.error e := h
      injection h with h
      exact Or.inl h.symm
  | cons a rest =>
      refine Or.inr (foldlM_cmp_error ?_ rest a e h)
      intro acc x e' hx
      simp only [] at hx
      rcases hl : pyLt x acc with e'' | b <;> rw [hl] at hx
      · replace hx : Except.error e'' = Except.error e' := hx
        injection hx with hx
        exact hx ▸ pyLt_error hl
      · exact Except.noConfusion hx

theorem pyMax_error {args : List Val} {e : PyExc} (h : pyMax args = .error e) :
    e = .valueError ∨ e = .typeError := by
  cases args with
  | nil =>
      replace h : Except.error PyExc.valueError = Except.error e := h
      injection h with h
      exact Or.inl h.symm
  | cons a rest =>
      refine Or.inr (foldlM_cmp_error ?_ rest a e h)
      intro acc x e' hx
      simp only [] at hx
      rcases hl : pyGt x acc with e'' | b <;> rw [hl] at hx
      · replace hx : Except.error e'' = Except.error e' := hx
        injection hx with hx
        exact hx ▸ pyLt_error hl
      · exact Except.noConfusion hx

theorem pyIntConv_error {v : Val} {e : PyExc} (h : pyIntConv v = .error e) :
    e = .overflowError ∨ e = .valueError ∨ e = .typeError := by
  cases v with
  | num n =>
      cases n <;>
        first
          | exact Except.noConfusion h
          | (injection h with h; rw [← h]; simp)
  | bool b => exact Except.noConfusion h
  | str s =>
      replace h : (match pyIntParse (pyStrip s) with
        | some z => (Except.ok z : Except PyExc ℤ)
        | none => .error .valueError) = .error e := h
      split at h
      · exact Except.noConfusion h
      · injection h with h
        rw [← h]
        simp
  | complex =>
      injection h with h
      rw [← h]
      simp

theorem pyRound2_error {a : Val} {n : ℤ} {e : PyExc}
    (h : pyRound2 a n = .error e) : e = .typeError := by
  unfold pyRound2 at h
  repeat' split at h
  all_goals first
    | exact Except.noConfusion h
    | (injection h with h; exact h.symm)

theorem pyRoundCall_error {a b : Val} {e : PyExc}
    (h : pyRoundCall a b = .error e) :
    e = .typeError ∨ e = .overflowError ∨ e = .valueError := by
  unfold pyRoundCall at h
  rcases hic : pyIntConv b with e' | n <;> rw [hic] at h
  · replace h : Except.error e' = Except.error e := h
    injection h with h
    rcases pyIntConv_error hic with h1 | h1 | h1 <;> subst h <;> simp [h1]
  · replace h : pyRound2 a n = .error e := h
    exact Or.inl (pyRound2_error h)

theorem applyOp_error_kinds {op : Op} {args : List Val} {e : PyExc}
    (h : applyOp op args = .error e) :
    e = .typeError ∨ e = .zeroDivisionError ∨ e = .overflowError ∨
      e = .valueError := by
  cases op with
  | add =>
      rcases args with _ | ⟨a, _ | ⟨b, _ | ⟨c, rest⟩⟩⟩ <;>
        first
          | (injection h with h; rw [← h]; simp)
          | skip
      replace h : pyAdd a b = .error e := h
      cases a <;> cases b <;>
        first
          | exact Except.noConfusion h
          | (injection h with h; rw [← h]; simp)
  | subtract =>
      rcases args with _ | ⟨a, _ | ⟨b, _ | ⟨c, rest⟩⟩⟩ <;>
        first
          | (injection h with h; rw [← h]; simp)
          | skip
      replace h : pySub a b = .error e := h
      cases a <;> cases b <;>
        first
          | exact Except.noConfusion h
          | (injection h with h; rw [← h]; simp)
  | multiply =>
      rcases args with _ | ⟨a, _ | ⟨b, _ | ⟨c, rest⟩⟩⟩ <;>
        first
          | (injection h with h; rw [← h]; simp)
          | skip
      replace h : pyMul a b = .error e := h
      cases a <;> cases b <;>
        first
          | exact Except.noConfusion h
          | (injection h with h; rw [← h]; simp)
          | (rename_i x y; cases x <;> cases y <;>
              first
                | exact Except.noConfusion h
                | (injection h with h; rw [← h]; simp))
          | (rename_i x; cases x <;>
              first
                | exact Except.noConfusion h
                | (injection h with h; rw [← h]; simp))
  | divide =>
      rcases args with _ | ⟨a, _ | ⟨b, _ | ⟨c, rest⟩⟩⟩ <;>
        first
          | (injection h with h; rw [← h]; simp)
          | skip
      replace h : pyDivide a b = .error e := h
      unfold pyDivide at h
      split at h
      · cases a <;> cases b <;>
          first
            | exact Except.noConfusion h
            | (injection h with h; rw [← h]; simp)
      · exact Except.noConfusion h
  | exp =>
      rcases args with _ | ⟨a, _ | ⟨b, _ | ⟨c, rest⟩⟩⟩ <;>
        first
          | (injection h with h; rw [← h]; simp)
          | skip
      replace h : pyPow a b = .error e := h
      cases a with
      | str sa => cases b <;> (injection h with h; rw [← h]; simp)
      | complex =>
          cases b <;>
            first
              | (injection h with h; rw [← h]; simp)
              | exact Except.noConfusion h
      | num x =>
          cases b with
          | str tb => injection h with h; rw [← h]; simp
          | num y => simp [numPow_error (x := x) (y := y) h]
          | bool bb => simp [numPow_error (x := x) (y := boolNum bb) h]
          | complex => exact Except.noConfusion h
      | bool ab =>
          cases b with
          | str tb => injection h with h; rw [← h]; simp
          | num y => simp [numPow_error (x := boolNum ab) (y := y) h]
          | bool bb => simp [numPow_error (x := boolNum ab) (y := boolNum bb) h]
          | complex => exact Except.noConfusion h
  | greater =>
      rcases args with _ | ⟨a, _ | ⟨b, _ | ⟨c, rest⟩⟩⟩ <;>
        first
          | (injection h with h; rw [← h]; simp)
          | skip
      replace h : Except.map Val.bool (pyGt a b) = .error e := h
      rcases hl : pyGt a b with e' | bb <;> rw [hl] at h
      · replace h : Except.error e' = Except.error e := h
        injection h with h
        simp [← h, pyLt_error hl]
      · exact Except.noConfusion h
  | less =>
      rcases args with _ | ⟨a, _ | ⟨b, _ | ⟨c, rest⟩⟩⟩ <;>
        first
          | (injection h with h; rw [← h]; simp)
          | skip
      replace h : Except.map Val.bool (pyLt a b) = .error e := h
      rcases hl : pyLt a b with e' | bb <;> rw [hl] at h
      · replace h : Except.error e' = Except.error e := h
        injection h with h
        simp [← h, pyLt_error hl]
      · exact Except.noConfusion h
  | eq =>
      rcases args with _ | ⟨a, _ | ⟨b, _ | ⟨c, rest⟩⟩⟩ <;>
        first
          | (injection h with h; rw [← h]; simp)
          | skip
      replace h : pyEqOp a b = .error e := h
      unfold pyEqOp at h
      repeat' split at h
      all_goals exact Except.noConfusion h
  | min =>
      rcases pyMin_error (show pyMin args = Except.error e from h) with
        h1 | h1 <;> simp [h1]
  | max =>
      rcases pyMax_error (show pyMax args = Except.error e from h) with
        h1 | h1 <;> simp [h1]
  | abs =>
      rcases args with _ | ⟨a, _ | ⟨b, rest⟩⟩ <;>
        first
          | (injection h with h; rw [← h]; simp)
          | skip
      replace h : pyAbs a = .error e := h
      cases a <;>
        first
          | exact Except.noConfusion h
          | (injection h with h; rw [← h]; simp)
  | round =>
      rcases args with _ | ⟨a, _ | ⟨b, _ | ⟨c, rest⟩⟩⟩
      · injection h with h; rw [← h]; simp
      · replace h : pyRoundCall a (.num (.int 0)) = .error e := h
        rcases pyRoundCall_error h with h1 | h1 | h1 <;> simp [h1]
      · replace h : pyRoundCall a b = .error e := h
        rcases pyRoundCall_error h with h1 | h1 | h1 <;> simp [h1]
      · injection h with h; rw [← h]; simp

theorem execStep_error {results : List Val} {i : ℕ} {s : List Char} {e : Err}
    (h : execStep results i s = .error e) :
    (∃ k, e = .dsl i (pyStrip s) k) ∨ e = .uncaught .valueError := by
  simp only [execStep] at h
  split at h
  · injection h with h
    exact Or.inl ⟨_, h.symm⟩
  · split at h
    · injection h with h
      exact Or.inl ⟨_, h.symm⟩
    · split at h
      · rename_i e' herr
        split at h
        · injection h with h
          exact Or.inl ⟨_, h.symm⟩
        · rename_i hne
          exact absurd (mapM_resolve_error herr) (by
            rcases mapM_resolve_error herr with h1 | h1 <;> simp [h1] at hne ⊢)
      · split at h
        · exact Except.noConfusion h
        · rename_i e' happ
          split at h
          · injection h with h
            exact Or.inl ⟨_, h.symm⟩
          · rename_i hne
            injection h with h
            rcases applyOp_error_kinds happ with h1 | h1 | h1 | h1
            · subst h1; simp at hne
            · subst h1; simp at hne
            · subst h1; simp at hne
            · subst h1; exact Or.inr h.symm

theorem execGo_error :
    ∀ (steps : List (List Char)) (results : List Val) (i : ℕ) (last : Val)
      (e : Err), execGo results i last steps = .error e →
      (∃ j stp k, e = .dsl j (pyStrip stp) k ∧ i ≤ j ∧
        steps.get? (j - i) = some stp) ∨ e = .uncaught .valueError := by
  intro steps
  induction steps with
  | nil =>
      intro results i last e h
      exact Except.noConfusion h
  | cons s rest ih =>
      intro results i last e h
      unfold execGo at h
      split at h
      · rename_i e' hst
        injection h with h
        subst h
        rcases execStep_error hst with ⟨k, hk⟩ | hk
        · exact Or.inl ⟨i, s, k, hk, le_rfl, by simp⟩
        · exact Or.inr hk
      · rename_i w hw
        rcases ih (results ++ [w]) (i + 1) w e h with ⟨j, stp, k, hk, hij, hg⟩ | hk
        · refine Or.inl ⟨j, stp, k, hk, by omega, ?_⟩
          have : j - i = (j - (i + 1)) + 1 := by omega
          rw [this]
          simpa using hg
        · exact Or.inr hk

/-- C5 amended: every failure of `execute_program` is either the
empty-program `DSLError`, or a `DSLError` carrying the 0-based offending
step index and the stripped raw step text, or an *uncaught* `ValueError`
escaping from inside an operator (`round`'s `int()` conversion, or
`min`/`max` on an empty argument list).  No other exception kind escapes. -/
theorem C5_error_taxonomy (p : List String) (e : Err)
    (h : execute p = .error e) :
    (p = [] ∧ e = .emptyProgram) ∨
    (∃ i s k, e = .dsl i (pyStrip s.toList) k ∧ p.get? i = some s) ∨
    e = .uncaught .valueError := by
  unfold execute at h
  cases p with
  | nil =>
      replace h : (Except.error .emptyProgram : Except Err Val) = .error e := h
      injection h with h
      exact Or.inl ⟨rfl, h.symm⟩
  | cons s rest =>
      rw [List.map_cons] at h
      replace h : (match execStep [] 0 s.toList with
        | .error e => (.error e : Except Err Val)
        | .ok v0 => execGo [v0] 1 v0 (rest.map String.toList)) = .error e := h
      split at h
      · rename_i e' hst
        injection h with h
        subst h
        rcases execStep_error hst with ⟨k, hk⟩ | hk
        · exact Or.inr (Or.inl ⟨0, s, k, hk, rfl⟩)
        · exact Or.inr (Or.inr hk)
      · rename_i w hw
        rcases execGo_error (rest.map String.toList) [w] 1 w e h with
          ⟨j, stp, k, hk, hij, hg⟩ | hk
        · rw [List.get?_map] at hg
          rcases hrg : rest.get? (j - 1) with _ | y
          · rw [hrg] at hg
            exact absurd hg (by simp)
          · rw [hrg] at hg
            replace hg : some y.toList = some stp := hg
            injection hg with hg
            refine Or.inr (Or.inl ⟨j, y, k, ?_, ?_⟩)
            · rw [hk, ← hg]
            · show List.get? _ j = _
              rw [show j = (j - 1) + 1 from by omega]
              simp only [List.get?_cons_succ]
              exact hrg
        · exact Or.inr (Or.inr hk)

/-- Witness for `C5_error_taxonomy` at `p = ["foobar(1,2)"]`
(an unknown-operation `DSLError` at step 0). -/
theorem C5_error_taxonomy_witness :
    ((["foobar(1,2)"] : List String) = [] ∧
        (Err.dsl 0 "foobar(1,2)".toList .unknownOperation) = .emptyProgram) ∨
      (∃ i s k, (Err.dsl 0 "foobar(1,2)".toList .unknownOperation) =
          .dsl i (pyStrip s.toList) k ∧
        (["foobar(1,2)"] : List String).get? i = some s) ∨
      (Err.dsl 0 "foobar(1,2)".toList .unknownOperation) =
        .uncaught .valueError :=
  C5_error_taxonomy ["foobar(1,2)"]
    (.dsl 0 "foobar(1,2)".toList .unknownOperation) (by decide)

theorem mem_of_head {l : List Char} {c : Char} (h : l.head? = some c) :
    c ∈ l := by
  cases l with
  | nil => exact Option.noConfusion h
  | cons a as =>
      rw [List.head?_cons] at h
      injection h with h
      subst h
      exact List.mem_cons_self _ _

theorem mem_of_getLast {l : List Char} {c : Char} (h : l.getLast? = some c) :
    c ∈ l := by
  induction l with
  | nil => exact Option.noConfusion h
  | cons a as ih =>
      cases as with
      | nil =>
          rw [List.getLast?_singleton] at h
          injection h with h
          subst h
          exact List.mem_cons_self _ _
      | cons b bs =>
          rw [List.getLast?_cons_cons] at h
          exact List.mem_cons_of_mem _ (ih h)

theorem hasSuffix_false_of_last_ne {l suf : List Char} {c d : Char}
    (hc : l.getLast? = some c) (hd : suf.getLast? = some d) (hne : c ≠ d) :
    hasSuffix l suf = false := by
  rcases hs : hasSuffix l suf with _ | _
  · rfl
  · have hlast := hasSuffix_getLast hs (by
      intro h
      rw [h] at hd
      exact Option.noConfusion hd)
    rw [hc, hd] at hlast
    exact absurd (Option.some.inj hlast) hne

theorem dropSuffix_eq_self {l suf : List Char} (h : hasSuffix l suf = false) :
    dropSuffix l suf = l := by
  unfold dropSuffix
  rw [h]
  simp

theorem stripUnits_eq_self {l : List Char} {c : Char}
    (hc : l.getLast? = some c)
    (h1 : c ≠ '円') (h2 : c ≠ 'ル') (h3 : c ≠ 'ト') (h4 : c ≠ 't')
    (h5 : c ≠ 's') : stripUnits l = l := by
  unfold stripUnits unitSuffixes
  rw [List.foldl_cons, dropSuffix_eq_self (hasSuffix_false_of_last_ne hc
    (show (['百', '万', '円'] : List Char).getLast? = some '円' from rfl) h1)]
  rw [List.foldl_cons, dropSuffix_eq_self (hasSuffix_false_of_last_ne hc
    (show (['千', '円'] : List Char).getLast? = some '円' from rfl) h1)]
  rw [List.foldl_cons, dropSuffix_eq_self (hasSuffix_false_of_last_ne hc
    (show (['億', '円'] : List Char).getLast? = some '円' from rfl) h1)]
  rw [List.foldl_cons, dropSuffix_eq_self (hasSuffix_false_of_last_ne hc
    (show (['兆', '円'] : List Char).getLast? = some '円' from rfl) h1)]
  rw [List.foldl_cons, dropSuffix_eq_self (hasSuffix_false_of_last_ne hc
    (show (['円'] : List Char).getLast? = some '円' from rfl) h1)]
  rw [List.foldl_cons, dropSuffix_eq_self (hasSuffix_false_of_last_ne hc
    (show (['ド', 'ル'] : List Char).getLast? = some 'ル' from rfl) h2)]
  rw [List.foldl_cons, dropSuffix_eq_self (hasSuffix_false_of_last_ne hc
    (show (['ポ', 'イ', 'ン', 'ト'] : List Char).getLast? = some 'ト' from rfl) h3)]
  rw [List.foldl_cons, dropSuffix_eq_self (hasSuffix_false_of_last_ne hc
    (show (['p', 't'] : List Char).getLast? = some 't' from rfl) h4)]
  rw [List.foldl_cons, dropSuffix_eq_self (hasSuffix_false_of_last_ne hc
    (show (['b', 'p', 's'] : List Char).getLast? = some 's' from rfl) h5)]
  rw [List.foldl_nil]

theorem isPrefixOf_self (l : List Char) : l.isPrefixOf l = true := by
  induction l with
  | nil => rfl
  | cons a r ih => simp [List.isPrefixOf, ih]

theorem isPrefixOf_mem_head {c : Char} {ps l : List Char}
    (h : (c :: ps).isPrefixOf l = true) : c ∈ l := by
  cases l with
  | nil => exact absurd h (by simp [List.isPrefixOf])
  | cons a as =>
      simp only [List.isPrefixOf, Bool.and_eq_true, beq_iff_eq] at h
      rw [h.1]
      exact List.mem_cons_self _ _

theorem containsSub_head_mem {c : Char} {ps l : List Char}
    (h : containsSub (c :: ps) l = true) : c ∈ l := by
  unfold containsSub at h
  rw [List.any_eq_true] at h
  obtain ⟨i, _, hp⟩ := h
  exact List.mem_of_mem_drop (isPrefixOf_mem_head hp)

theorem containsSub_append_right (pat l : List Char) :
    containsSub pat (l ++ pat) = true := by
  unfold containsSub
  rw [List.any_eq_true]
  refine ⟨l.length, List.mem_range.mpr ?_, ?_⟩
  · rw [List.length_append]
    omega
  · rw [List.drop_left]
    exact isPrefixOf_self pat

theorem eraseAllSub_cons_of_ne {pat : List Char} {a h0 : Char}
    {pt rest : List Char} (hp : pat = h0 :: pt) (hne : h0 ≠ a) :
    eraseAllSub pat (a :: rest) = a :: eraseAllSub pat rest := by
  subst hp
  conv_lhs => unfold eraseAllSub
  rw [dif_neg (by simp)]
  rw [if_neg ?_]
  · rfl
  · intro hpre
    simp only [List.isPrefixOf, Bool.and_eq_true, beq_iff_eq] at hpre
    exact hne hpre.1

theorem eraseAllSub_self {pat : List Char} (hp : pat ≠ []) :
    eraseAllSub pat pat = [] := by
  unfold eraseAllSub
  rw [dif_neg (by simp [hp])]
  rw [if_pos (isPrefixOf_self pat), List.drop_length]
  unfold eraseAllSub
  rw [dif_pos (Or.inr rfl)]

theorem eraseAllSub_append_self {pat : List Char} (l : List Char)
    (hp : pat ≠ []) (hh : pat.head! ∉ l) :
    eraseAllSub pat (l ++ pat) = l := by
  induction l with
  | nil => simpa using eraseAllSub_self hp
  | cons a as ih =>
      obtain ⟨h0, pt, hpat⟩ : ∃ x y, pat = x :: y := by
        cases pat with
        | nil => exact absurd rfl hp
        | cons x xs => exact ⟨x, xs, rfl⟩
      have hh0 : pat.head! = h0 := by rw [hpat]; rfl
      rw [hh0] at hh
      have hna : h0 ≠ a := fun he => hh (he ▸ List.mem_cons_self _ _)
      rw [List.cons_append, eraseAllSub_cons_of_ne hpat hna,
        ih (by rw [hh0]; exact fun hm => hh (List.mem_cons_of_mem _ hm))]

theorem not_mem_neg_digits {c : Char} {ds : List Char}
    (hd : ∀ x ∈ ds, isAsciiDigit x = true) (h1 : c ≠ '-')
    (h2 : 57 < c.toNat) : c ∉ '-' :: ds := by
  intro hmem
  rcases List.mem_cons.mp hmem with h | h
  · exact h1 h
  · have h3 := (isAsciiDigit_toNat c).mp (hd c h)
    omega

theorem not_mem_neg_digits_kanji {c : Char} {ds k : List Char}
    (hd : ∀ x ∈ ds, isAsciiDigit x = true) (h1 : c ≠ '-')
    (h2 : 57 < c.toNat) (h3 : c ∉ k) : c ∉ '-' :: (ds ++ k) := by
  intro hmem
  rcases List.mem_cons.mp hmem with h | h
  · exact h1 h
  · rcases List.mem_append.mp h with h | h
    · have h4 := (isAsciiDigit_toNat c).mp (hd c h)
      omega
    · exact h3 h

theorem pyFloatParse_neg_digits {ds : List Char} (hne : ds ≠ [])
    (hd : ∀ c ∈ ds, isAsciiDigit c = true) :
    pyFloatParse ('-' :: ds) = some (-(digitsToNat ds : ℚ)) := by
  have hnotu : ∀ c ∈ ('-' :: ds), c ≠ '_' := by
    intro c hc
    rcases List.mem_cons.mp hc with h | h
    · subst h; decide
    · have h2 := (isAsciiDigit_toNat c).mp (hd c h)
      intro he
      subst he
      rw [show ('_' : Char).toNat = 95 from rfl] at h2
      omega
  have hu : underscoresOk none ('-' :: ds) = true :=
    underscoresOk_of_no_underscore hnotu none
  have hfil : List.filter (fun x => !decide (x = '_')) ds = ds :=
    filter_eq_self_of (fun c hc => by
      rw [decide_eq_false (fun he => hnotu c (List.mem_cons_of_mem _ hc) he)]
      rfl)
  have hpd : parseDigits ds = some (digitsToNat ds) := by
    unfold parseDigits
    rw [if_pos ⟨hne, List.all_eq_true.mpr hd⟩]
  have hse : splitExp ds = (ds, none) := by
    simp only [splitExp]
    rw [takeWhile_eq_self_of (fun c hc => by
      show decide (¬ (c = 'e' ∨ c = 'E')) = true
      rw [decide_eq_true_iff]
      have h2 := (isAsciiDigit_toNat c).mp (hd c hc)
      rintro (rfl | rfl)
      · rw [show ('e' : Char).toNat = 101 from rfl] at h2; omega
      · rw [show ('E' : Char).toNat = 69 from rfl] at h2; omega)]
    rw [List.drop_length]
  have hpm : parseMantissa ds = some ((digitsToNat ds : ℚ)) := by
    simp only [parseMantissa]
    rw [takeWhile_eq_self_of (fun c hc => by
      show decide (¬ c = '.') = true
      rw [decide_eq_true_iff]
      have h2 := (isAsciiDigit_toNat c).mp (hd c hc)
      rintro rfl
      rw [show ('.' : Char).toNat = 46 from rfl] at h2
      omega)]
    rw [List.drop_length]
    show (parseDigits ds).map (fun n => (n : ℚ)) = some ((digitsToNat ds : ℚ))
    rw [hpd]
    rfl
  simp [pyFloatParse, hu, hfil, hse, hpm,
    show splitSign ('-' :: ds) = (true, ds) from rfl]

theorem normalizeAnswerL_neg_num {g : Char} {ds k : List Char}
    (hg : g = '△' ∨ g = '▲') (hd : ∀ c ∈ ds, isAsciiDigit c = true)
    (hk0 : k ≠ [])
    (hkw : ∀ c ∈ k, isPyWs c = false)
    (hkn : ∀ c ∈ k, nfkcChar c = c)
    (hkc : ∀ c ∈ k, c ≠ ',')
    (hkl : ∀ c ∈ k, pyLower c = c)
    (hkt : k.getLast? ≠ some 'た') :
    normalizeAnswerL (g :: (ds ++ k)) = '-' :: (ds ++ k) := by
  obtain ⟨y, hkL⟩ : ∃ c, k.getLast? = some c := by
    cases k with
    | nil => exact absurd rfl hk0
    | cons a t => exact ⟨(a :: t).getLast (by simp), List.getLast?_eq_getLast _ _⟩
  have hwsAll : ∀ c ∈ g :: (ds ++ k), isPyWs c = false := by
    intro c hc
    rcases List.mem_cons.mp hc with h | h
    · subst h
      rcases hg with h | h <;> subst h <;> decide
    · rcases List.mem_append.mp h with h | h
      · exact isPyWs_of_digit (hd c h)
      · exact hkw c h
  have hstrip1 : pyStrip (g :: (ds ++ k)) = g :: (ds ++ k) :=
    pyStrip_eq_self _ (fun c hc => hwsAll c (mem_of_head hc))
      (fun c hc => hwsAll c (mem_of_getLast hc))
  have hnfAll : ∀ c ∈ g :: (ds ++ k), nfkcChar c = c := by
    intro c hc
    rcases List.mem_cons.mp hc with h | h
    · subst h
      rcases hg with h | h <;> subst h <;> decide
    · rcases List.mem_append.mp h with h | h
      · have h2 := (isAsciiDigit_toNat c).mp (hd c h)
        exact nfkcChar_fix (by omega) (by omega)
      · exact hkn c h
  have hnf : nfkcMap (g :: (ds ++ k)) = g :: (ds ++ k) := map_id_of hnfAll
  have hnc : ∀ c ∈ '-' :: (ds ++ k), c ≠ ',' := by
    intro c hc
    rcases List.mem_cons.mp hc with h | h
    · subst h; decide
    · rcases List.mem_append.mp h with h | h
      · have h2 := (isAsciiDigit_toNat c).mp (hd c h)
        intro he
        subst he
        rw [show (',' : Char).toNat = 44 from rfl] at h2
        omega
      · exact hkc c h
  have hdc : decomma ('-' :: (ds ++ k)) = '-' :: (ds ++ k) :=
    decommaAux_no_comma hnc none
  have hlast2 : ('-' :: (ds ++ k)).getLast? = some y := by
    rw [getLast?_of_suffix (show k <:+ '-' :: (ds ++ k) from ⟨'-' :: ds, rfl⟩)
      hk0]
    exact hkL
  have hes : endingStrip ('-' :: (ds ++ k)) = '-' :: (ds ++ k) :=
    endingStrip_eq_self (hasSuffix_false_of_last_ne hlast2
      (show shita.getLast? = some 'た' from rfl)
      (fun he => hkt (by rw [← he]; exact hkL)))
  have hlowAll : ∀ c ∈ '-' :: (ds ++ k), pyLower c = c := by
    intro c hc
    rcases List.mem_cons.mp hc with h | h
    · subst h; decide
    · rcases List.mem_append.mp h with h | h
      · have h2 := (isAsciiDigit_toNat c).mp (hd c h)
        refine pyLower_fix (fun hAZ => ?_)
        have h3 := char_le_toNat.mp hAZ.1
        rw [show ('A' : Char).toNat = 65 from rfl] at h3
        omega
      · exact hkl c h
  have hlow : ('-' :: (ds ++ k)).map pyLower = '-' :: (ds ++ k) :=
    map_id_of hlowAll
  have hws2 : ∀ c ∈ '-' :: (ds ++ k), isPyWs c = false := by
    intro c hc
    rcases List.mem_cons.mp hc with h | h
    · subst h; decide
    · exact hwsAll c (List.mem_cons_of_mem _ h)
  unfold normalizeAnswerL
  rw [if_neg (by simp : ¬(g :: (ds ++ k) = []))]
  rw [hstrip1, hnf, triSub_cons, if_pos hg, hdc, hes, hlow]
  exact pyStrip_eq_self _ (fun c hc => hws2 c (mem_of_head hc))
    (fun c hc => hws2 c (mem_of_getLast hc))

theorem extractNumberL_kanji_case {t S q : List Char} {m : ℚ}
    (hA : normalizeAnswerL t = S) (hS : ¬ (S = []))
    (hsu : stripUnits S = S)
    (hscan : kanjiScan S = some (q, m)) :
    extractNumberL t =
      (pyFloatParse (keepNum (pyStrip (eraseAllSub q S)))).map (· * m) := by
  unfold extractNumberL
  rw [hA, if_neg hS, hsu, hscan]

theorem containsSub_false_of_head {c : Char} {ps l : List Char}
    (h : c ∉ l) : containsSub (c :: ps) l = false := by
  rcases hcs : containsSub (c :: ps) l with _ | _
  · rfl
  · exact absurd (containsSub_head_mem hcs) h

/-- C8: for every answer string made of a leading Japanese negative glyph
(`△` or `▲`), an unsigned decimal integer, and a bare kanji
order-of-magnitude word from `_KANJI_MULTIPLIERS`, `extract_number`
returns the negated number multiplied by the kanji scalar (the glyph is
rewritten to `-` before the multiplier is applied, so the sign is scaled
consistently); e.g. `extract_number("△100億") = -100 × 10^8`. -/
theorem C8_neg_glyph_kanji (g : Char) (ds k : List Char) (m : ℚ)
    (hg : g = '△' ∨ g = '▲') (hne : ds ≠ [])
    (hd : ∀ c ∈ ds, isAsciiDigit c = true)
    (hk : (k, m) ∈ kanjiMultipliers) :
    extractNumber (String.mk (g :: (ds ++ k))) =
      some (-(digitsToNat ds : ℚ) * m) := by
  show extractNumberL (g :: (ds ++ k)) = some (-(digitsToNat ds : ℚ) * m)
  have hfp := pyFloatParse_neg_digits hne hd
  have hst2 : pyStrip ('-' :: ds) = '-' :: ds :=
    pyStrip_eq_self _
      (fun c hc => by
        rcases List.mem_cons.mp (mem_of_head hc) with h | h
        · subst h; decide
        · exact isPyWs_of_digit (hd c h))
      (fun c hc => by
        rcases List.mem_cons.mp (mem_of_getLast hc) with h | h
        · subst h; decide
        · exact isPyWs_of_digit (hd c h))
  have hkn2 : keepNum ('-' :: ds) = '-' :: ds :=
    filter_eq_self_of (fun c hc => by
      rcases List.mem_cons.mp hc with h | h
      · subst h; decide
      · show decide (isAsciiDigit c = true ∨ c = '.' ∨ c = '-' ∨ c = '+') = true
        rw [decide_eq_true_iff]
        exact Or.inl (hd c h))
  simp only [kanjiMultipliers, List.mem_cons, List.not_mem_nil, or_false,
    Prod.mk.injEq] at hk
  rcases hk with ⟨rfl, rfl⟩ | ⟨rfl, rfl⟩ | ⟨rfl, rfl⟩ | ⟨rfl, rfl⟩
  · -- k = ['千'], m = 1000
    have hA : normalizeAnswerL (g :: (ds ++ ['千'])) = '-' :: (ds ++ ['千']) :=
      normalizeAnswerL_neg_num hg hd (by decide) (by decide) (by decide)
        (by decide) (by decide) (by decide)
    have hlastL : ('-' :: (ds ++ ['千'])).getLast? = some '千' := by
      rw [getLast?_of_suffix
        (show ['千'] <:+ '-' :: (ds ++ ['千']) from ⟨'-' :: ds, rfl⟩)
        (by decide)]
      rfl
    have hsu := stripUnits_eq_self hlastL (by decide) (by decide) (by decide)
      (by decide) (by decide)
    have hscan : kanjiScan ('-' :: (ds ++ ['千'])) = some (['千'], 1000) := by
      have hpos : containsSub ['千'] ('-' :: (ds ++ ['千'])) = true :=
        containsSub_append_right ['千'] ('-' :: ds)
      unfold kanjiScan kanjiMultipliers
      simp only [List.find?, hpos]
    have her : eraseAllSub ['千'] ('-' :: (ds ++ ['千'])) = '-' :: ds :=
      eraseAllSub_append_self ('-' :: ds) (by decide)
        (not_mem_neg_digits hd (by decide) (by decide))
    rw [extractNumberL_kanji_case hA (by simp) hsu hscan, her, hst2, hkn2, hfp]
    rfl
  · -- k = ['百', '万'], m = 10^6
    have hA : normalizeAnswerL (g :: (ds ++ ['百', '万'])) =
        '-' :: (ds ++ ['百', '万']) :=
      normalizeAnswerL_neg_num hg hd (by decide) (by decide) (by decide)
        (by decide) (by decide) (by decide)
    have hlastL : ('-' :: (ds ++ ['百', '万'])).getLast? = some '万' := by
      rw [getLast?_of_suffix
        (show ['百', '万'] <:+ '-' :: (ds ++ ['百', '万']) from
          ⟨'-' :: ds, rfl⟩) (by decide)]
      rfl
    have hsu := stripUnits_eq_self hlastL (by decide) (by decide) (by decide)
      (by decide) (by decide)
    have hscan : kanjiScan ('-' :: (ds ++ ['百', '万'])) =
        some (['百', '万'], 1000000) := by
      have hn1 : containsSub ['千'] ('-' :: (ds ++ ['百', '万'])) = false :=
        containsSub_false_of_head
          (not_mem_neg_digits_kanji hd (by decide) (by decide) (by decide))
      have hpos : containsSub ['百', '万'] ('-' :: (ds ++ ['百', '万'])) =
          true := containsSub_append_right ['百', '万'] ('-' :: ds)
      unfold kanjiScan kanjiMultipliers
      simp only [List.find?, hn1, hpos]
    have her : eraseAllSub ['百', '万'] ('-' :: (ds ++ ['百', '万'])) =
        '-' :: ds :=
      eraseAllSub_append_self ('-' :: ds) (by decide)
        (not_mem_neg_digits hd (by decide) (by decide))
    rw [extractNumberL_kanji_case hA (by simp) hsu hscan, her, hst2, hkn2, hfp]
    rfl
  · -- k = ['億'], m = 10^8
    have hA : normalizeAnswerL (g :: (ds ++ ['億'])) = '-' :: (ds ++ ['億']) :=
      normalizeAnswerL_neg_num hg hd (by decide) (by decide) (by decide)
        (by decide) (by decide) (by decide)
    have hlastL : ('-' :: (ds ++ ['億'])).getLast? = some '億' := by
      rw [getLast?_of_suffix
        (show ['億'] <:+ '-' :: (ds ++ ['億']) from ⟨'-' :: ds, rfl⟩)
        (by decide)]
      rfl
    have hsu := stripUnits_eq_self hlastL (by decide) (by decide) (by decide)
      (by decide) (by decide)
    have hscan : kanjiScan ('-' :: (ds ++ ['億'])) =
        some (['億'], 100000000) := by
      have hn1 : containsSub ['千'] ('-' :: (ds ++ ['億'])) = false :=
        containsSub_false_of_head
          (not_mem_neg_digits_kanji hd (by decide) (by decide) (by decide))
      have hn2 : containsSub ['百', '万'] ('-' :: (ds ++ ['億'])) = false :=
        containsSub_false_of_head
          (not_mem_neg_digits_kanji hd (by decide) (by decide) (by decide))
      have hpos : containsSub ['億'] ('-' :: (ds ++ ['億'])) = true :=
        containsSub_append_right ['億'] ('-' :: ds)
      unfold kanjiScan kanjiMultipliers
      simp only [List.find?, hn1, hn2, hpos]
    have her : eraseAllSub ['億'] ('-' :: (ds ++ ['億'])) = '-' :: ds :=
      eraseAllSub_append_self ('-' :: ds) (by decide)
        (not_mem_neg_digits hd (by decide) (by decide))
    rw [extractNumberL_kanji_case hA (by simp) hsu hscan, her, hst2, hkn2, hfp]
    rfl
  · -- k = ['兆'], m = 10^12
    have hA : normalizeAnswerL (g :: (ds ++ ['兆'])) = '-' :: (ds ++ ['兆']) :=
      normalizeAnswerL_neg_num hg hd (by decide) (by decide) (by decide)
        (by decide) (by decide) (by decide)
    have hlastL : ('-' :: (ds ++ ['兆'])).getLast? = some '兆' := by
      rw [getLast?_of_suffix
        (show ['兆'] <:+ '-' :: (ds ++ ['兆']) from ⟨'-' :: ds, rfl⟩)
        (by decide)]
      rfl
    have hsu := stripUnits_eq_self hlastL (by decide) (by decide) (by decide)
      (by decide) (by decide)
    have hscan : kanjiScan ('-' :: (ds ++ ['兆'])) =
        some (['兆'], 1000000000000) := by
      have hn1 : containsSub ['千'] ('-' :: (ds ++ ['兆'])) = false :=
        containsSub_false_of_head
          (not_mem_neg_digits_kanji hd (by decide) (by decide) (by decide))
      have hn2 : containsSub ['百', '万'] ('-' :: (ds ++ ['兆'])) = false :=
        containsSub_false_of_head
          (not_mem_neg_digits_kanji hd (by decide) (by decide) (by decide))
      have hn3 : containsSub ['億'] ('-' :: (ds ++ ['兆'])) = false :=
        containsSub_false_of_head
          (not_mem_neg_digits_kanji hd (by decide) (by decide) (by decide))
      have hpos : containsSub ['兆'] ('-' :: (ds ++ ['兆'])) = true :=
        containsSub_append_right ['兆'] ('-' :: ds)
      unfold kanjiScan kanjiMultipliers
      simp only [List.find?, hn1, hn2, hn3, hpos]
    have her : eraseAllSub ['兆'] ('-' :: (ds ++ ['兆'])) = '-' :: ds :=
      eraseAllSub_append_self ('-' :: ds) (by decide)
        (not_mem_neg_digits hd (by decide) (by decide))
    rw [extractNumberL_kanji_case hA (by simp) hsu hscan, her, hst2, hkn2, hfp]
    rfl

/-- Witness for `C8_neg_glyph_kanji` at `"△100億"`:
the value is `-100 × 10^8 = -10^10`. -/
theorem C8_neg_glyph_kanji_witness :
    extractNumber (String.mk ('△' :: (['1', '0', '0'] ++ ['億']))) =
      some (-(digitsToNat ['1', '0', '0'] : ℚ) * 100000000) ∧
    -(digitsToNat ['1', '0', '0'] : ℚ) * 100000000 = -10000000000 :=
  ⟨C8_neg_glyph_kanji '△' ['1', '0', '0'] ['億'] 100000000 (Or.inl rfl)
    (by decide) (by decide) (by decide), by decide⟩

theorem dedupAux_cons (t : ℚ)
    (cache : List (String × List (Finset (List Char)))) (q : DedupQ)
    (rest : List DedupQ) :
    dedupAux t cache (q :: rest) =
      if (cacheGet cache q.company).any
          (fun cached => t < jaccard (charNgrams q.question) cached) then
        dedupAux t cache rest
      else q :: dedupAux t (cacheAdd cache q.company (charNgrams q.question))
        rest := rfl

theorem cacheGet_cons (p : String × List (Finset (List Char)))
    (rest : List (String × List (Finset (List Char)))) (c : String) :
    cacheGet (p :: rest) c = if p.1 = c then p.2 else cacheGet rest c := by
  unfold cacheGet
  simp only [List.find?]
  rcases h : decide (p.1 = c) with _ | _
  · rw [if_neg (of_decide_eq_false h)]
  · rw [if_pos (of_decide_eq_true h)]

theorem cacheAdd_cons (p : String × List (Finset (List Char)))
    (rest : List (String × List (Finset (List Char)))) (c : String)
    (ng : Finset (List Char)) :
    cacheAdd (p :: rest) c ng =
      if p.1 = c then (p.1, p.2 ++ [ng]) :: rest
      else p :: cacheAdd rest c ng := rfl

theorem cacheGet_cacheAdd_mono {s ng : Finset (List Char)} {c d : String} :
    ∀ (cache : List (String × List (Finset (List Char)))),
      s ∈ cacheGet cache c → s ∈ cacheGet (cacheAdd cache d ng) c := by
  intro cache
  induction cache with
  | nil =>
      intro h
      exact absurd h (List.not_mem_nil s)
  | cons p rest ih =>
      intro h
      rw [cacheGet_cons] at h
      rw [cacheAdd_cons]
      by_cases hpd : p.1 = d
      · rw [if_pos hpd, cacheGet_cons]
        by_cases hpc : p.1 = c
        · rw [if_pos hpc]
          rw [if_pos hpc] at h
          exact List.mem_append_left _ h
        · rw [if_neg hpc]
          rw [if_neg hpc] at h
          exact h
      · rw [if_neg hpd, cacheGet_cons]
        by_cases hpc : p.1 = c
        · rw [if_pos hpc]
          rw [if_pos hpc] at h
          exact h
        · rw [if_neg hpc]
          rw [if_neg hpc] at h
          exact ih h

theorem cacheGet_cacheAdd_self {ng : Finset (List Char)} {c : String} :
    ∀ (cache : List (String × List (Finset (List Char)))),
      ng ∈ cacheGet (cacheAdd cache c ng) c := by
  intro cache
  induction cache with
  | nil =>
      show ng ∈ cacheGet [(c, [ng])] c
      rw [cacheGet_cons, if_pos rfl]
      exact List.mem_cons_self _ _
  | cons p rest ih =>
      rw [cacheAdd_cons]
      by_cases hpc : p.1 = c
      · rw [if_pos hpc, cacheGet_cons, if_pos hpc]
        exact List.mem_append_right _ (List.mem_cons_self _ _)
      · rw [if_neg hpc, cacheGet_cons, if_neg hpc]
        exact ih

theorem cacheGet_cacheAdd_other {ng : Finset (List Char)} {c d : String}
    (hcd : c ≠ d) :
    ∀ (cache : List (String × List (Finset (List Char)))),
      cacheGet (cacheAdd cache d ng) c = cacheGet cache c := by
  intro cache
  induction cache with
  | nil =>
      show cacheGet [(d, [ng])] c = cacheGet [] c
      rw [cacheGet_cons, if_neg (fun h => hcd h.symm)]
  | cons p rest ih =>
      rw [cacheAdd_cons]
      by_cases hpd : p.1 = d
      · rw [if_pos hpd, cacheGet_cons, cacheGet_cons]
        by_cases hpc : p.1 = c
        · exact absurd (hpc.symm.trans hpd) hcd
        · rw [if_neg hpc, if_neg hpc]
      · rw [if_neg hpd, cacheGet_cons, cacheGet_cons]
        by_cases hpc : p.1 = c
        · rw [if_pos hpc, if_pos hpc]
        · rw [if_neg hpc, if_neg hpc]
          exact ih

theorem mem_dedupAux {t : ℚ} {b : DedupQ} :
    ∀ (qs : List DedupQ) (cache), b ∈ dedupAux t cache qs → b ∈ qs := by
  intro qs
  induction qs with
  | nil =>
      intro cache h
      exact absurd h (List.not_mem_nil b)
  | cons q rest ih =>
      intro cache h
      rw [dedupAux_cons] at h
      split at h
      · exact List.mem_cons_of_mem _ (ih _ h)
      · rcases List.mem_cons.mp h with h | h
        · rw [h]
          exact List.mem_cons_self _ _
        · exact List.mem_cons_of_mem _ (ih _ h)

theorem dedup_suppressed {t : ℚ} {b : DedupQ} :
    ∀ (qs : List DedupQ) (cache),
      (∃ s ∈ cacheGet cache b.company,
        t < jaccard (charNgrams b.question) s) →
      b ∉ dedupAux t cache qs := by
  intro qs
  induction qs with
  | nil =>
      intro cache _ hmem
      exact absurd hmem (List.not_mem_nil b)
  | cons q rest ih =>
      intro cache h hmem
      rw [dedupAux_cons] at hmem
      split at hmem
      · exact ih cache h hmem
      · rename_i hcheck
        rcases List.mem_cons.mp hmem with he | hmem2
        · subst he
          obtain ⟨s, hs, hj⟩ := h
          refine hcheck ?_
          rw [List.any_eq_true]
          exact ⟨s, hs, decide_eq_true hj⟩
        · obtain ⟨s, hs, hj⟩ := h
          exact ih _ ⟨s, cacheGet_cacheAdd_mono _ hs, hj⟩ hmem2

theorem dedup_kept_suppresses {t : ℚ} {a b : DedupQ}
    (hba : b ≠ a) (hcomp : b.company = a.company)
    (hj : t < jaccard (charNgrams b.question) (charNgrams a.question)) :
    ∀ (l₁ l₂ : List DedupQ) (cache), a ∉ l₁ → a ∉ l₂ → b ∉ l₁ →
      a ∈ dedupAux t cache (l₁ ++ a :: l₂) →
      b ∉ dedupAux t cache (l₁ ++ a :: l₂) := by
  intro l₁
  induction l₁ with
  | nil =>
      intro l₂ cache _ ha2 _ hmem hbmem
      rw [List.nil_append, dedupAux_cons] at hmem hbmem
      by_cases hc : (cacheGet cache a.company).any
          (fun cached => t < jaccard (charNgrams a.question) cached) = true
      · rw [if_pos hc] at hmem
        exact ha2 (mem_dedupAux _ _ hmem)
      · rw [if_neg hc] at hbmem
        rcases List.mem_cons.mp hbmem with he | hbmem2
        · exact hba he
        · refine dedup_suppressed l₂ _ ?_ hbmem2
          refine ⟨charNgrams a.question, ?_, hj⟩
          rw [hcomp]
          exact cacheGet_cacheAdd_self _
  | cons p rest ih =>
      intro l₂ cache ha1 ha2 hb1 hmem hbmem
      rw [List.cons_append, dedupAux_cons] at hmem hbmem
      by_cases hc : (cacheGet cache p.company).any
          (fun cached => t < jaccard (charNgrams p.question) cached) = true
      · rw [if_pos hc] at hmem hbmem
        exact ih _ _ (fun h => ha1 (List.mem_cons_of_mem _ h)) ha2
          (fun h => hb1 (List.mem_cons_of_mem _ h)) hmem hbmem
      · rw [if_neg hc] at hmem hbmem
        have hmem2 : a ∈ dedupAux t
            (cacheAdd cache p.company (charNgrams p.question))
            (rest ++ a :: l₂) := by
          rcases List.mem_cons.mp hmem with h | h
          · refine absurd ?_ ha1
            rw [h]
            exact List.mem_cons_self _ _
          · exact h
        rcases List.mem_cons.mp hbmem with h | h
        · refine hb1 ?_
          rw [h]
          exact List.mem_cons_self _ _
        · exact ih _ _ (fun hx => ha1 (List.mem_cons_of_mem _ hx)) ha2
            (fun hx => hb1 (List.mem_cons_of_mem _ hx)) hmem2 h

theorem dedup_new_company_kept {t : ℚ} {q : DedupQ} :
    ∀ (l₁ l₂ : List DedupQ) (cache),
      (∀ p ∈ l₁, p.company ≠ q.company) →
      cacheGet cache q.company = [] →
      q ∈ dedupAux t cache (l₁ ++ q :: l₂) := by
  intro l₁
  induction l₁ with
  | nil =>
      intro l₂ cache _ hcg
      rw [List.nil_append, dedupAux_cons]
      rw [if_neg (by rw [hcg]; simp)]
      exact List.mem_cons_self _ _
  | cons p rest ih =>
      intro l₂ cache hcomp hcg
      rw [List.cons_append, dedupAux_cons]
      by_cases hc : (cacheGet cache p.company).any
          (fun cached => t < jaccard (charNgrams p.question) cached) = true
      · rw [if_pos hc]
        exact ih _ _ (fun x hx => hcomp x (List.mem_cons_of_mem _ hx)) hcg
      · rw [if_neg hc]
        refine List.mem_cons_of_mem _
          (ih _ _ (fun x hx => hcomp x (List.mem_cons_of_mem _ hx)) ?_)
        rw [cacheGet_cacheAdd_other
          (fun he => hcomp p (List.mem_cons_self _ _) he.symm)]
        exact hcg

theorem C9_counterexample :
    deduplicate [⟨"abcdefghijklmnopqrst", some "E1"⟩,
        ⟨"defghijklmnopqrstuvw", some "E1"⟩,
        ⟨"ghijklmnopqrstuvwxyz", some "E1"⟩] =
      [⟨"abcdefghijklmnopqrst", some "E1"⟩,
       ⟨"ghijklmnopqrstuvwxyz", some "E1"⟩] ∧
    7/10 < jaccard (charNgrams "defghijklmnopqrstuvw")
        (charNgrams "ghijklmnopqrstuvwxyz") ∧
    (DedupQ.mk "defghijklmnopqrstuvw" (some "E1")).company =
      (DedupQ.mk "ghijklmnopqrstuvwxyz" (some "E1")).company := by
  decide

/-- C9 amended: within one company a question is suppressed exactly by the
*kept* earlier questions: (1) if `a` is kept then every distinct later
question `b` of the same company with trigram Jaccard above the threshold
is suppressed; (2) a question whose company differs from every earlier
question's company always survives.  (The original pairwise reading fails
when the earlier member of a similar pair was itself suppressed — see the
counterexample, where the *second* member of a >0.7 pair survives.) -/
theorem C9_same_company_dedup (qs₁ qs₂ : List DedupQ) (a b q : DedupQ) :
    (b ≠ a → b.company = a.company →
      7/10 < jaccard (charNgrams b.question) (charNgrams a.question) →
      a ∉ qs₁ → a ∉ qs₂ → b ∉ qs₁ →
      a ∈ deduplicate (qs₁ ++ a :: qs₂) →
      b ∉ deduplicate (qs₁ ++ a :: qs₂)) ∧
    ((∀ p ∈ qs₁, p.company ≠ q.company) →
      q ∈ deduplicate (qs₁ ++ q :: qs₂)) := by
  constructor
  · intro hba hcomp hj ha1 ha2 hb1 hmem
    exact dedup_kept_suppresses hba hcomp hj qs₁ qs₂ [] ha1 ha2 hb1 hmem
  · intro hcomp
    exact dedup_new_company_kept qs₁ qs₂ [] hcomp rfl

/-- Witness for `C9_same_company_dedup`: a kept question kills a later
similar same-company question, and a fresh-company question survives. -/
theorem C9_same_company_dedup_witness :
    ((⟨"defghijklmnopqrstuvw", some "E1"⟩ : DedupQ) ∉
      deduplicate [⟨"abcdefghijklmnopqrst", some "E1"⟩,
        ⟨"defghijklmnopqrstuvw", some "E1"⟩]) ∧
    ((⟨"zzzzz", some "E2"⟩ : DedupQ) ∈
      deduplicate [⟨"abcdefghijklmnopqrst", some "E1"⟩,
        ⟨"zzzzz", some "E2"⟩]) :=
  ⟨(C9_same_company_dedup [] [⟨"defghijklmnopqrstuvw", some "E1"⟩]
      ⟨"abcdefghijklmnopqrst", some "E1"⟩
      ⟨"defghijklmnopqrstuvw", some "E1"⟩ ⟨"zzzzz", some "E2"⟩).1
      (by decide) (by decide) (by decide) (by decide) (by decide) (by decide)
      (by decide),
    (C9_same_company_dedup [⟨"abcdefghijklmnopqrst", some "E1"⟩] []
      ⟨"x", none⟩ ⟨"x", none⟩ ⟨"zzzzz", some "E2"⟩).2 (by decide)⟩

end JfinqaModel
